import Mathlib

/-!
# Verification of the free-text workout-cell parser (`flatten_workout.py`)

This file is a shallow embedding, in Lean 4, of the text-processing core of
the workout tracker: `archive/data_utils/flatten_workout.py`.  Strings are
modelled as `List Char`; Python floats are modelled as exact rationals
(`Rat`); each Python regular expression is hand-compiled into a
deterministic recursive scanner that reproduces the backtracking behaviour
of the original pattern on its reachable inputs.  The pandas data-frame
manipulation in `flatten_one` / `flatten_many` is embedded starting from the
melted long-form rows (exercise, set-row, date, cell text).

One modelling note: inputs to the anchored `re.match` patterns of
`split_reps_segments` are always outputs of `normalize_tokens`, which
collapses every whitespace run (including newlines) to a single blank, so
`.`/`$` can be embedded with end-of-string semantics.

The rational-arithmetic primitives are restored to their ordinary
(semireducible) transparency so that concrete runs of the parser can be
checked by `decide`; this changes nothing about what the kernel accepts.
-/

set_option allowUnsafeReducibility true
attribute [local semireducible] Rat.mul Rat.inv Rat.add Rat.sub Rat.ofScientific

namespace FlattenWorkout

/-- Cell text, modelled as a list of characters. -/
abbrev Str := List Char

/-- Python's `\s` for the ASCII range (blank, tab, newline, CR, VT, FF). -/
def isPySpace (c : Char) : Bool :=
  c = ' ' || c = '\t' || c = '\n' || c = '\r' || c = Char.ofNat 11 || c = Char.ofNat 12

/-- Python's `str.strip`: drop whitespace from both ends. -/
def pyStrip (l : Str) : Str :=
  ((l.dropWhile isPySpace).reverse.dropWhile isPySpace).reverse

/-- One attempt of the pattern `\s*OP\s*` at the head of the string
(`OP` is `+` or `*`).  Returns the remainder after the greedy match, or
`none` when the first non-space character is not `OP`. -/
def tryOpMatch (op : Char) (l : Str) : Option Str :=
  match l.dropWhile isPySpace with
  | c :: r => if c = op then some (r.dropWhile isPySpace) else none
  | [] => none

theorem dropWhile_len_le (p : Char → Bool) (l : Str) :
    (l.dropWhile p).length ≤ l.length := by
  induction l with
  | nil => simp
  | cons c t ih =>
    by_cases h : p c
    · rw [List.dropWhile_cons_of_pos h]; exact Nat.le_succ_of_le ih
    · rw [List.dropWhile_cons_of_neg h]

theorem tryOpMatch_length {op : Char} {l r : Str} (h : tryOpMatch op l = some r) :
    r.length < l.length := by
  unfold tryOpMatch at h
  cases hd : l.dropWhile isPySpace with
  | nil => rw [hd] at h; exact absurd h (by simp)
  | cons c t =>
    rw [hd] at h
    by_cases hc : c = op
    · simp only [hc, if_true, Option.some.injEq] at h
      subst h
      calc (t.dropWhile isPySpace).length ≤ t.length := dropWhile_len_le _ t
        _ < (c :: t).length := by simp
        _ ≤ l.length := by rw [← hd]; exact dropWhile_len_le _ l
    · simp [hc] at h

/-- Fuelled form of one `re.sub(r"\s*OP\s*", "OP", s)` pass (structural
recursion so the kernel can evaluate it; the fuel is always sufficient). -/
def subOpF (op : Char) : Nat → Str → Str
  | _, [] => []
  | 0, l => l
  | f + 1, c :: rest =>
    match tryOpMatch op (c :: rest) with
    | some r => op :: subOpF op f r
    | none => c :: subOpF op f rest

/-- `re.sub(r"\s*OP\s*", "OP", s)`: replace every (greedy, left-to-right,
non-overlapping) occurrence of optionally-space-padded `OP` by a bare `OP`. -/
def subOp (op : Char) (l : Str) : Str := subOpF op l.length l

theorem subOpF_fuel {op : Char} : ∀ {f1 : Nat} {l : Str} {f2 : Nat},
    l.length ≤ f1 → l.length ≤ f2 → subOpF op f1 l = subOpF op f2 l := by
  intro f1
  induction f1 with
  | zero =>
    intro l f2 h1 _
    cases l with
    | nil => cases f2 <;> rfl
    | cons c rest => exact absurd h1 (by simp)
  | succ f ih =>
    intro l f2 h1 h2
    cases l with
    | nil => cases f2 <;> rfl
    | cons c rest =>
      cases f2 with
      | zero => exact absurd h2 (by simp)
      | succ g =>
        show (match tryOpMatch op (c :: rest) with
              | some r => op :: subOpF op f r
              | none => c :: subOpF op f rest) =
            (match tryOpMatch op (c :: rest) with
              | some r => op :: subOpF op g r
              | none => c :: subOpF op g rest)
        cases hm : tryOpMatch op (c :: rest) with
        | some r =>
          have hr := tryOpMatch_length hm
          simp only [List.length_cons] at h1 h2 hr
          dsimp only
          rw [@ih r g (by omega) (by omega)]
        | none =>
          simp only [List.length_cons] at h1 h2
          dsimp only
          rw [@ih rest g (by omega) (by omega)]

theorem subOp_nil (op : Char) : subOp op [] = [] := rfl

theorem subOp_matched {op c : Char} {rest r : Str}
    (h : tryOpMatch op (c :: rest) = some r) :
    subOp op (c :: rest) = op :: subOp op r := by
  show subOpF op (c :: rest).length (c :: rest) = op :: subOpF op r.length r
  have hr := tryOpMatch_length h
  have e : subOpF op (c :: rest).length (c :: rest) =
      match tryOpMatch op (c :: rest) with
      | some r2 => op :: subOpF op rest.length r2
      | none => c :: subOpF op rest.length rest := rfl
  rw [e, h]
  dsimp only
  rw [@subOpF_fuel op rest.length r r.length (by simp at hr; omega) (le_refl _)]

theorem subOp_skip {op c : Char} {rest : Str}
    (h : tryOpMatch op (c :: rest) = none) :
    subOp op (c :: rest) = c :: subOp op rest := by
  show subOpF op (c :: rest).length (c :: rest) = c :: subOpF op rest.length rest
  have e : subOpF op (c :: rest).length (c :: rest) =
      match tryOpMatch op (c :: rest) with
      | some r2 => op :: subOpF op rest.length r2
      | none => c :: subOpF op rest.length rest := rfl
  rw [e, h]

theorem subOp_ind (op : Char) (motive : Str → Prop) (base : motive [])
    (step1 : ∀ c rest r, tryOpMatch op (c :: rest) = some r → motive r →
      motive (c :: rest))
    (step2 : ∀ c rest, tryOpMatch op (c :: rest) = none → motive rest →
      motive (c :: rest)) :
    ∀ l, motive l := by
  have H : ∀ n, ∀ l : Str, l.length ≤ n → motive l := by
    intro n
    induction n with
    | zero =>
      intro l hl
      cases l with
      | nil => exact base
      | cons c rest => exact absurd hl (by simp)
    | succ n ih =>
      intro l hl
      cases l with
      | nil => exact base
      | cons c rest =>
        cases hm : tryOpMatch op (c :: rest) with
        | some r =>
          refine step1 c rest r hm (ih r ?_)
          have := tryOpMatch_length hm
          simp only [List.length_cons] at hl this
          omega
        | none =>
          refine step2 c rest hm (ih rest ?_)
          simp only [List.length_cons] at hl
          omega
  exact fun l => H l.length l (le_refl _)

/-- Fuelled form of `re.sub(r"\s+", " ", s)`. -/
def subWsF : Nat → Str → Str
  | _, [] => []
  | 0, l => l
  | f + 1, c :: rest =>
    if isPySpace c then ' ' :: subWsF f (rest.dropWhile isPySpace)
    else c :: subWsF f rest

/-- `re.sub(r"\s+", " ", s)`: collapse every whitespace run to one blank. -/
def subWs (l : Str) : Str := subWsF l.length l

theorem subWsF_fuel : ∀ {f1 : Nat} {l : Str} {f2 : Nat},
    l.length ≤ f1 → l.length ≤ f2 → subWsF f1 l = subWsF f2 l := by
  intro f1
  induction f1 with
  | zero =>
    intro l f2 h1 _
    cases l with
    | nil => cases f2 <;> rfl
    | cons c rest => exact absurd h1 (by simp)
  | succ f ih =>
    intro l f2 h1 h2
    cases l with
    | nil => cases f2 <;> rfl
    | cons c rest =>
      cases f2 with
      | zero => exact absurd h2 (by simp)
      | succ g =>
        show (if isPySpace c then ' ' :: subWsF f (rest.dropWhile isPySpace)
              else c :: subWsF f rest) =
            (if isPySpace c then ' ' :: subWsF g (rest.dropWhile isPySpace)
              else c :: subWsF g rest)
        simp only [List.length_cons] at h1 h2
        by_cases hc : isPySpace c
        · rw [if_pos hc, if_pos hc]
          have := dropWhile_len_le isPySpace rest
          rw [@ih (rest.dropWhile isPySpace) g (by omega) (by omega)]
        · rw [if_neg hc, if_neg hc]
          rw [@ih rest g (by omega) (by omega)]

theorem subWs_nil : subWs [] = [] := rfl

theorem subWs_ws {c : Char} {rest : Str} (h : isPySpace c = true) :
    subWs (c :: rest) = ' ' :: subWs (rest.dropWhile isPySpace) := by
  show subWsF (c :: rest).length (c :: rest) =
    ' ' :: subWsF (rest.dropWhile isPySpace).length (rest.dropWhile isPySpace)
  have e : subWsF (c :: rest).length (c :: rest) =
      if isPySpace c then ' ' :: subWsF rest.length (rest.dropWhile isPySpace)
      else c :: subWsF rest.length rest := rfl
  rw [e, if_pos h]
  have := dropWhile_len_le isPySpace rest
  rw [@subWsF_fuel rest.length (rest.dropWhile isPySpace) (rest.dropWhile isPySpace).length (by omega) (le_refl _)]

theorem subWs_nws {c : Char} {rest : Str} (h : isPySpace c = false) :
    subWs (c :: rest) = c :: subWs rest := by
  show subWsF (c :: rest).length (c :: rest) = c :: subWsF rest.length rest
  have e : subWsF (c :: rest).length (c :: rest) =
      if isPySpace c then ' ' :: subWsF rest.length (rest.dropWhile isPySpace)
      else c :: subWsF rest.length rest := rfl
  rw [e, if_neg (by simp [h])]

theorem subWs_ind (motive : Str → Prop) (base : motive [])
    (stepWs : ∀ c rest, isPySpace c = true →
      motive (rest.dropWhile isPySpace) → motive (c :: rest))
    (stepC : ∀ c rest, isPySpace c = false → motive rest → motive (c :: rest)) :
    ∀ l, motive l := by
  have H : ∀ n, ∀ l : Str, l.length ≤ n → motive l := by
    intro n
    induction n with
    | zero =>
      intro l hl
      cases l with
      | nil => exact base
      | cons c rest => exact absurd hl (by simp)
    | succ n ih =>
      intro l hl
      cases l with
      | nil => exact base
      | cons c rest =>
        simp only [List.length_cons] at hl
        by_cases hc : isPySpace c
        · refine stepWs c rest hc (ih _ ?_)
          have := dropWhile_len_le isPySpace rest
          omega
        · refine stepC c rest (by simpa using hc) (ih rest (by omega))
  exact fun l => H l.length l (le_refl _)

/-- `normalize_tokens` from the source: strip, tighten `+` and `*`,
collapse whitespace. -/
def normalize_tokens (l : Str) : Str :=
  subWs (subOp '*' (subOp '+' (pyStrip l)))

/-! ## `expand_group_settings_trailing`

The pattern `\((\s*\d+(?:\.\d+)?(?:\s*\+\s*\d+(?:\.\d+)?)+\s*)\)\(([^)]+)\)`
is compiled into the recursive-descent scanner `tryMatch`, one global
substitution pass into `passG`, and the `while prev != reps_blob` loop into
the fuelled `expandGo`.  Termination of the loop is established through the
measure `countPP` (the number of `)(` adjacencies), which every productive
pass strictly decreases. -/

/-- Expect one literal character at the head of the string. -/
def expectC (c : Char) (l : Str) : Option Str :=
  match l with
  | x :: r => if x = c then some r else none
  | [] => none

theorem expectC_some {c : Char} {l r : Str} (h : expectC c l = some r) :
    l = c :: r := by
  unfold expectC at h
  cases l with
  | nil => exact absurd h (by simp)
  | cons x t =>
    by_cases hx : x = c
    · simp only [hx, if_true, Option.some.injEq] at h; rw [hx, h]
    · simp [hx] at h

/-- `\d+`: a maximal nonempty digit run, with the remainder. -/
def pDigitsT (l : Str) : Option (Str × Str) :=
  if l.takeWhile Char.isDigit = [] then none
  else some (l.takeWhile Char.isDigit, l.dropWhile Char.isDigit)

/-- `\d+(?:\.\d+)?`: a numeral (with optional fraction), and the remainder. -/
def pNumT (l : Str) : Option (Str × Str) :=
  match pDigitsT l with
  | none => none
  | some (d, r) =>
    match expectC '.' r with
    | some r2 =>
      match pDigitsT r2 with
      | some (f, r3) => some (d ++ '.' :: f, r3)
      | none => some (d, r)
    | none => some (d, r)

/-- `\s*\+\s*\d+(?:\.\d+)?`: returns (consumed text, the numeral, rest). -/
def pPlusNumT (l : Str) : Option (Str × Str × Str) :=
  match expectC '+' (l.dropWhile isPySpace) with
  | some r2 =>
    match pNumT (r2.dropWhile isPySpace) with
    | some (n, r4) =>
      some (l.takeWhile isPySpace ++ '+' :: (r2.takeWhile isPySpace ++ n), n, r4)
    | none => none
  | none => none

/-- Well-formed numeral text: nonempty, leading digit, digits and dots only. -/
def numOK (n : Str) : Prop :=
  (∃ d ds, n = d :: ds ∧ d.isDigit = true) ∧ ∀ c ∈ n, c.isDigit = true ∨ c = '.'

theorem pDigitsT_some {l d r : Str} (h : pDigitsT l = some (d, r)) :
    l = d ++ r ∧ d ≠ [] ∧ ∀ c ∈ d, c.isDigit = true := by
  unfold pDigitsT at h
  by_cases he : l.takeWhile Char.isDigit = []
  · simp [he] at h
  · simp only [he, if_false, Option.some.injEq, Prod.mk.injEq] at h
    obtain ⟨h1, h2⟩ := h
    subst h1; subst h2
    exact ⟨(l.takeWhile_append_dropWhile Char.isDigit).symm, he,
      fun c hc => List.mem_takeWhile_imp hc⟩

theorem pNumT_some {l n r : Str} (h : pNumT l = some (n, r)) :
    l = n ++ r ∧ numOK n := by
  unfold pNumT at h
  cases hd : pDigitsT l with
  | none => rw [hd] at h; exact absurd h (by simp)
  | some dr =>
    obtain ⟨d, r1⟩ := dr
    rw [hd] at h
    obtain ⟨hdec, hdne, hdall⟩ := pDigitsT_some hd
    obtain ⟨c, cs, hc⟩ : ∃ c cs, d = c :: cs := by
      cases d with
      | nil => exact absurd rfl hdne
      | cons c cs => exact ⟨c, cs, rfl⟩
    have hcdig : c.isDigit = true := hdall c (by simp [hc])
    have hbase : l = d ++ r1 ∧ numOK d :=
      ⟨hdec, ⟨c, cs, hc, hcdig⟩, fun x hx => Or.inl (hdall x hx)⟩
    dsimp only at h
    cases hdot : expectC '.' r1 with
    | none => rw [hdot] at h; simp only [Option.some.injEq, Prod.mk.injEq] at h
              obtain ⟨h1, h2⟩ := h; subst h1; subst h2; exact hbase
    | some r2 =>
      rw [hdot] at h
      dsimp only at h
      have hr1 : r1 = '.' :: r2 := expectC_some hdot
      cases hf : pDigitsT r2 with
      | none => rw [hf] at h; simp only [Option.some.injEq, Prod.mk.injEq] at h
                obtain ⟨h1, h2⟩ := h; subst h1; subst h2; exact hbase
      | some fr =>
        obtain ⟨f, r3⟩ := fr
        rw [hf] at h
        simp only [Option.some.injEq, Prod.mk.injEq] at h
        obtain ⟨h1, h2⟩ := h; subst h1; subst h2
        obtain ⟨hfdec, hfne, hfall⟩ := pDigitsT_some hf
        constructor
        · rw [hdec, hr1, hfdec]; simp
        · refine ⟨⟨c, cs ++ '.' :: f, by simp [hc], hcdig⟩, fun x hx => ?_⟩
          rcases List.mem_append.1 hx with hx | hx
          · exact Or.inl (hdall x hx)
          · rcases List.mem_cons.1 hx with hx | hx
            · exact Or.inr hx
            · exact Or.inl (hfall x hx)

theorem pNumT_length {l n r : Str} (h : pNumT l = some (n, r)) :
    r.length < l.length := by
  obtain ⟨hdec, ⟨d, ds, hn, _⟩, _⟩ := pNumT_some h
  rw [hdec, hn]
  simp only [List.length_append, List.length_cons]
  omega

theorem pPlusNumT_some {l c n r : Str} (h : pPlusNumT l = some (c, n, r)) :
    l = c ++ r ∧ numOK n := by
  unfold pPlusNumT at h
  cases hp : expectC '+' (l.dropWhile isPySpace) with
  | none => rw [hp] at h; exact absurd h (by simp)
  | some r2 =>
    rw [hp] at h
    dsimp only at h
    cases hnum : pNumT (r2.dropWhile isPySpace) with
    | none => rw [hnum] at h; exact absurd h (by simp)
    | some nr =>
      obtain ⟨n4, r4⟩ := nr
      rw [hnum] at h
      simp only [Option.some.injEq, Prod.mk.injEq] at h
      obtain ⟨h1, h2, h3⟩ := h; subst h1; subst h2; subst h3
      obtain ⟨hdec2, hok⟩ := pNumT_some hnum
      refine ⟨?_, hok⟩
      have e1 : l = l.takeWhile isPySpace ++ ('+' :: r2) := by
        rw [← expectC_some hp]; exact (l.takeWhile_append_dropWhile isPySpace).symm
      have e2 : r2 = r2.takeWhile isPySpace ++ (n4 ++ r4) := by
        rw [← hdec2]; exact (r2.takeWhile_append_dropWhile isPySpace).symm
      have e3 : (List.takeWhile isPySpace l ++ '+' :: (List.takeWhile isPySpace r2 ++ n4)) ++ r4
          = List.takeWhile isPySpace l ++ '+' :: (List.takeWhile isPySpace r2 ++ (n4 ++ r4)) := by
        simp
      rw [e3, ← e2]
      exact e1

theorem pPlusNumT_length {l c n r : Str} (h : pPlusNumT l = some (c, n, r)) :
    r.length < l.length := by
  unfold pPlusNumT at h
  cases hp : expectC '+' (l.dropWhile isPySpace) with
  | none => rw [hp] at h; exact absurd h (by simp)
  | some r2 =>
    rw [hp] at h
    dsimp only at h
    cases hnum : pNumT (r2.dropWhile isPySpace) with
    | none => rw [hnum] at h; exact absurd h (by simp)
    | some nr =>
      obtain ⟨n4, r4⟩ := nr
      rw [hnum] at h
      simp only [Option.some.injEq, Prod.mk.injEq] at h
      obtain ⟨_, _, h3⟩ := h; subst h3
      calc r4.length < (r2.dropWhile isPySpace).length := pNumT_length hnum
        _ ≤ r2.length := dropWhile_len_le _ r2
        _ < ('+' :: r2).length := by simp
        _ ≤ l.length := by
            rw [← expectC_some hp]; exact dropWhile_len_le _ l

/-- Fuelled form of the `+numeral` repetition. -/
def pPlusManyF : Nat → Str → Str × List Str × Str
  | 0, l => ([], [], l)
  | f + 1, l =>
    match pPlusNumT l with
    | none => ([], [], l)
    | some (c, n, r) =>
      (c ++ (pPlusManyF f r).1, n :: (pPlusManyF f r).2.1, (pPlusManyF f r).2.2)

/-- `(?:\s*\+\s*\d+(?:\.\d+)?)*`: as many `+numeral` groups as possible. -/
def pPlusManyT (l : Str) : Str × List Str × Str := pPlusManyF l.length l

theorem pPlusManyF_fuel : ∀ {f1 : Nat} {l : Str} {f2 : Nat},
    l.length ≤ f1 → l.length ≤ f2 → pPlusManyF f1 l = pPlusManyF f2 l := by
  intro f1
  induction f1 with
  | zero =>
    intro l f2 h1 h2
    have hl : l = [] := List.eq_nil_of_length_eq_zero (Nat.le_zero.mp h1)
    subst hl
    cases f2 with
    | zero => rfl
    | succ g => rfl
  | succ f ih =>
    intro l f2 h1 h2
    cases f2 with
    | zero =>
      have hl : l = [] := List.eq_nil_of_length_eq_zero (Nat.le_zero.mp h2)
      subst hl
      rfl
    | succ g =>
      show (match pPlusNumT l with
            | none => (([] : Str), ([] : List Str), l)
            | some (c, n, r) =>
              (c ++ (pPlusManyF f r).1, n :: (pPlusManyF f r).2.1,
                (pPlusManyF f r).2.2)) =
          (match pPlusNumT l with
            | none => (([] : Str), ([] : List Str), l)
            | some (c, n, r) =>
              (c ++ (pPlusManyF g r).1, n :: (pPlusManyF g r).2.1,
                (pPlusManyF g r).2.2))
      cases hm : pPlusNumT l with
      | none => rfl
      | some t =>
        obtain ⟨c, n, r⟩ := t
        have hr := pPlusNumT_length hm
        dsimp only
        rw [@ih r g (by omega) (by omega)]

theorem pPlusManyT_none {l : Str} (h : pPlusNumT l = none) :
    pPlusManyT l = ([], [], l) := by
  show pPlusManyF l.length l = ([], [], l)
  cases hl : l.length with
  | zero => rfl
  | succ f =>
    show (match pPlusNumT l with
          | none => (([] : Str), ([] : List Str), l)
          | some (c, n, r) =>
            (c ++ (pPlusManyF f r).1, n :: (pPlusManyF f r).2.1,
              (pPlusManyF f r).2.2)) = ([], [], l)
    rw [h]

theorem pPlusManyT_cons {l c n r : Str} (h : pPlusNumT l = some (c, n, r)) :
    pPlusManyT l = (c ++ (pPlusManyT r).1, n :: (pPlusManyT r).2.1, (pPlusManyT r).2.2) := by
  have hr := pPlusNumT_length h
  show pPlusManyF l.length l = _
  cases hl : l.length with
  | zero => exact absurd hr (by omega)
  | succ f =>
    show (match pPlusNumT l with
          | none => (([] : Str), ([] : List Str), l)
          | some (c2, n2, r2) =>
            (c2 ++ (pPlusManyF f r2).1, n2 :: (pPlusManyF f r2).2.1,
              (pPlusManyF f r2).2.2)) = _
    rw [h]
    dsimp only
    rw [@pPlusManyF_fuel f r r.length (by omega) (le_refl _)]
    rfl

theorem pPlusMany_ind (motive : Str → Prop)
    (h1 : ∀ l, pPlusNumT l = none → motive l)
    (h2 : ∀ l c n r, pPlusNumT l = some (c, n, r) → motive r → motive l) :
    ∀ l, motive l := by
  have H : ∀ k, ∀ l : Str, l.length ≤ k → motive l := by
    intro k
    induction k with
    | zero =>
      intro l hl
      have he : l = [] := List.eq_nil_of_length_eq_zero (Nat.le_zero.mp hl)
      subst he
      cases hm : pPlusNumT [] with
      | none => exact h1 [] hm
      | some t =>
        obtain ⟨c, n, r⟩ := t
        exact absurd (pPlusNumT_length hm) (by simp)
    | succ k ih =>
      intro l hl
      cases hm : pPlusNumT l with
      | none => exact h1 l hm
      | some t =>
        obtain ⟨c, n, r⟩ := t
        have hr := pPlusNumT_length hm
        exact h2 l c n r hm (ih r (by omega))
  exact fun l => H l.length l (le_refl _)

theorem pPlusManyT_spec (l : Str) :
    l = (pPlusManyT l).1 ++ (pPlusManyT l).2.2 ∧ ∀ n ∈ (pPlusManyT l).2.1, numOK n := by
  refine pPlusMany_ind
    (fun l => l = (pPlusManyT l).1 ++ (pPlusManyT l).2.2 ∧
      ∀ n ∈ (pPlusManyT l).2.1, numOK n) ?_ ?_ l
  · intro l h
    rw [pPlusManyT_none h]
    exact ⟨rfl, by simp⟩
  · intro l c n r h ih
    rw [pPlusManyT_cons h]
    obtain ⟨ih1, ih2⟩ := ih
    constructor
    · have hd := (pPlusNumT_some h).1
      dsimp only
      rw [List.append_assoc, ← ih1]
      exact hd
    · intro x hx
      dsimp only at hx
      rcases List.mem_cons.1 hx with hx | hx
      · subst hx; exact (pPlusNumT_some h).2
      · exact ih2 x hx

/-- `\s*\d+(?:\.\d+)?(?:\s*\+\s*\d+(?:\.\d+)?)+\s*` without its surrounding
whitespace: a numeral followed by at least one `+numeral` group.  Returns the
consumed text, the list of numerals and the remainder. -/
def pNumListT (l : Str) : Option (Str × List Str × Str) :=
  match pNumT l with
  | none => none
  | some (n1, r1) =>
    match pPlusNumT r1 with
    | none => none
    | some (c2, n2, r2) =>
      some (n1 ++ c2 ++ (pPlusManyT r2).1, n1 :: n2 :: (pPlusManyT r2).2.1,
            (pPlusManyT r2).2.2)

theorem pNumListT_some {l cN r : Str} {nums : List Str}
    (h : pNumListT l = some (cN, nums, r)) :
    l = cN ++ r ∧ nums ≠ [] ∧ ∀ n ∈ nums, numOK n := by
  unfold pNumListT at h
  cases h1 : pNumT l with
  | none => rw [h1] at h; exact absurd h (by simp)
  | some t1 =>
    obtain ⟨n1, r1⟩ := t1
    rw [h1] at h; dsimp only at h
    cases h2 : pPlusNumT r1 with
    | none => rw [h2] at h; exact absurd h (by simp)
    | some t2 =>
      obtain ⟨c2, n2, r2⟩ := t2
      rw [h2] at h
      simp only [Option.some.injEq, Prod.mk.injEq] at h
      obtain ⟨hc, hn, hr⟩ := h
      subst hc; subst hn; subst hr
      obtain ⟨e1, ok1⟩ := pNumT_some h1
      obtain ⟨e2, ok2⟩ := pPlusNumT_some h2
      obtain ⟨e3, ok3⟩ := pPlusManyT_spec r2
      refine ⟨?_, by simp, ?_⟩
      · conv_lhs => rw [e1, e2, e3]
        simp
      · intro n hn
        rcases List.mem_cons.1 hn with hn | hn
        · subst hn; exact ok1
        · rcases List.mem_cons.1 hn with hn | hn
          · subst hn; exact ok2
          · exact ok3 n hn

/-- `"+".join` on a list of token texts. -/
def joinPlus : List Str → Str
  | [] => []
  | [p] => p
  | p :: q :: ps => p ++ '+' :: joinPlus (q :: ps)

/-- One replacement piece `n(setting)` of the group-setting expansion. -/
def gsPiece (setting : Str) (n : Str) : Str := n ++ '(' :: (setting ++ [')'])

/-- `[^)]*` as a prefix. -/
def takeNotRp (l : Str) : Str := l.takeWhile (fun c => !(c = ')'))

/-- Remainder after `takeNotRp`. -/
def dropNotRp (l : Str) : Str := l.dropWhile (fun c => !(c = ')'))

/-- One attempt of the full pattern
`\((\s*\d+(\.\d+)?(\s*\+\s*\d+(\.\d+)?)+\s*)\)\(([^)]+)\)` at the head of
the string.  On success returns (matched text, replacement text, rest),
where the replacement is `"+".join(f"{n}({setting})" for n in nums)` as in
the source. -/
def tryMatch (l : Str) : Option (Str × Str × Str) :=
  match expectC '(' l with
  | none => none
  | some r1 =>
    match pNumListT (r1.dropWhile isPySpace) with
    | none => none
    | some (cN, nums, r3) =>
      match expectC ')' (r3.dropWhile isPySpace) with
      | none => none
      | some r5 =>
        match expectC '(' r5 with
        | none => none
        | some r6 =>
          if takeNotRp r6 = [] then none
          else
            match expectC ')' (dropNotRp r6) with
            | none => none
            | some r8 =>
              some ('(' :: (r1.takeWhile isPySpace ++ cN ++ r3.takeWhile isPySpace ++
                      (')' :: '(' :: (takeNotRp r6 ++ [')']))),
                    joinPlus (nums.map (gsPiece (pyStrip (takeNotRp r6)))),
                    r8)

theorem mem_of_mem_dropWhile {p : Char → Bool} {c : Char} {l : Str}
    (h : c ∈ l.dropWhile p) : c ∈ l := by
  induction l with
  | nil => simp at h
  | cons a t ih =>
    by_cases hp : p a
    · rw [List.dropWhile_cons_of_pos hp] at h
      exact List.mem_cons_of_mem a (ih h)
    · rw [List.dropWhile_cons_of_neg hp] at h
      exact h

theorem mem_of_mem_pyStrip {c : Char} {l : Str} (h : c ∈ pyStrip l) : c ∈ l := by
  unfold pyStrip at h
  rw [List.mem_reverse] at h
  have h2 := mem_of_mem_dropWhile h
  rw [List.mem_reverse] at h2
  exact mem_of_mem_dropWhile h2

theorem tryMatch_some {l m rep r : Str} (h : tryMatch l = some (m, rep, r)) :
    l = m ++ r ∧
    (∃ mid content, m = '(' :: (mid ++ ')' :: '(' :: (content ++ [')'])) ∧
        ∀ c ∈ content, c ≠ ')') ∧
    (∃ nums s, nums ≠ [] ∧ rep = joinPlus (nums.map (gsPiece s)) ∧
        (∀ n ∈ nums, numOK n) ∧ (∀ c ∈ s, c ≠ ')')) := by
  unfold tryMatch at h
  cases h1 : expectC '(' l with
  | none => rw [h1] at h; exact absurd h (by simp)
  | some r1 =>
    rw [h1] at h; dsimp only at h
    cases h2 : pNumListT (r1.dropWhile isPySpace) with
    | none => rw [h2] at h; exact absurd h (by simp)
    | some t2 =>
      obtain ⟨cN, nums, r3⟩ := t2
      rw [h2] at h; dsimp only at h
      cases h3 : expectC ')' (r3.dropWhile isPySpace) with
      | none => rw [h3] at h; exact absurd h (by simp)
      | some r5 =>
        rw [h3] at h; dsimp only at h
        cases h4 : expectC '(' r5 with
        | none => rw [h4] at h; exact absurd h (by simp)
        | some r6 =>
          rw [h4] at h; dsimp only at h
          by_cases h5 : takeNotRp r6 = []
          · rw [if_pos h5] at h; exact absurd h (by simp)
          · rw [if_neg h5] at h
            cases h6 : expectC ')' (dropNotRp r6) with
            | none => rw [h6] at h; exact absurd h (by simp)
            | some r8 =>
              rw [h6] at h
              simp only [Option.some.injEq, Prod.mk.injEq] at h
              obtain ⟨hm, hrep, hr⟩ := h
              subst hm; subst hrep; subst hr
              obtain ⟨e2, hnums_ne, hnums⟩ := pNumListT_some h2
              refine ⟨?_, ?_, ?_⟩
              · have el : l = '(' :: r1 := expectC_some h1
                have er1 : r1 = r1.takeWhile isPySpace ++ (cN ++ r3) := by
                  rw [← e2]; exact (r1.takeWhile_append_dropWhile isPySpace).symm
                have er3 : r3 = r3.takeWhile isPySpace ++ (')' :: r5) := by
                  rw [← expectC_some h3]
                  exact (r3.takeWhile_append_dropWhile isPySpace).symm
                have er5 : r5 = '(' :: r6 := expectC_some h4
                have er6 : r6 = takeNotRp r6 ++ (')' :: r8) := by
                  rw [← expectC_some h6]
                  exact (r6.takeWhile_append_dropWhile (fun c => !(c = ')'))).symm
                rw [el]
                conv_lhs => rw [er1, er3, er5, er6]
                simp
              · exact ⟨r1.takeWhile isPySpace ++ cN ++ r3.takeWhile isPySpace,
                  takeNotRp r6, by simp, fun c hc => by
                    have := List.mem_takeWhile_imp hc
                    simpa using this⟩
              · refine ⟨nums, pyStrip (takeNotRp r6), hnums_ne, rfl, hnums, ?_⟩
                intro c hc
                have hmem := mem_of_mem_pyStrip hc
                have := List.mem_takeWhile_imp hmem
                simpa using this

theorem tryMatch_length {l m rep r : Str} (h : tryMatch l = some (m, rep, r)) :
    r.length < l.length := by
  obtain ⟨hdec, ⟨mid, content, hm, _⟩, _⟩ := tryMatch_some h
  rw [hdec, hm]
  simp only [List.length_append, List.length_cons]
  omega

/-- Fuelled form of one global pass of `pat.sub(repl, s)`. -/
def passGF : Nat → Str → Str
  | _, [] => []
  | 0, l => l
  | f + 1, c :: rest =>
    match tryMatch (c :: rest) with
    | some (_, rep, r) => rep ++ passGF f r
    | none => c :: passGF f rest

/-- One global pass of `pat.sub(repl, s)`: scan left to right, replace every
match, skip one character when there is no match at the current position. -/
def passG (l : Str) : Str := passGF l.length l

theorem passGF_fuel : ∀ {f1 : Nat} {l : Str} {f2 : Nat},
    l.length ≤ f1 → l.length ≤ f2 → passGF f1 l = passGF f2 l := by
  intro f1
  induction f1 with
  | zero =>
    intro l f2 h1 h2
    cases l with
    | nil => cases f2 <;> rfl
    | cons c rest => exact absurd h1 (by simp)
  | succ f ih =>
    intro l f2 h1 h2
    cases l with
    | nil => cases f2 <;> rfl
    | cons c rest =>
      cases f2 with
      | zero => exact absurd h2 (by simp)
      | succ g =>
        show (match tryMatch (c :: rest) with
              | some (_, rep, r) => rep ++ passGF f r
              | none => c :: passGF f rest) =
            (match tryMatch (c :: rest) with
              | some (_, rep, r) => rep ++ passGF g r
              | none => c :: passGF g rest)
        cases hm : tryMatch (c :: rest) with
        | some t =>
          obtain ⟨m, rep, r⟩ := t
          have hr := tryMatch_length hm
          simp only [List.length_cons] at h1 h2 hr
          dsimp only
          rw [@ih r g (by omega) (by omega)]
        | none =>
          simp only [List.length_cons] at h1 h2
          dsimp only
          rw [@ih rest g (by omega) (by omega)]

theorem passG_nil : passG [] = [] := rfl

theorem passG_matched {c : Char} {rest m rep r : Str}
    (h : tryMatch (c :: rest) = some (m, rep, r)) :
    passG (c :: rest) = rep ++ passG r := by
  show passGF (c :: rest).length (c :: rest) = rep ++ passGF r.length r
  have hr := tryMatch_length h
  have e : passGF (c :: rest).length (c :: rest) =
      match tryMatch (c :: rest) with
      | some (_, rep2, r2) => rep2 ++ passGF rest.length r2
      | none => c :: passGF rest.length rest := rfl
  rw [e, h]
  dsimp only
  rw [@passGF_fuel rest.length r r.length (by simp at hr; omega) (le_refl _)]

theorem passG_skip {c : Char} {rest : Str} (h : tryMatch (c :: rest) = none) :
    passG (c :: rest) = c :: passG rest := by
  show passGF (c :: rest).length (c :: rest) = c :: passGF rest.length rest
  have e : passGF (c :: rest).length (c :: rest) =
      match tryMatch (c :: rest) with
      | some (_, rep2, r2) => rep2 ++ passGF rest.length r2
      | none => c :: passGF rest.length rest := rfl
  rw [e, h]

theorem passG_ind (motive : Str → Prop) (base : motive [])
    (step1 : ∀ c rest m rep r, tryMatch (c :: rest) = some (m, rep, r) →
      motive r → motive (c :: rest))
    (step2 : ∀ c rest, tryMatch (c :: rest) = none → motive rest →
      motive (c :: rest)) :
    ∀ l, motive l := by
  have H : ∀ n, ∀ l : Str, l.length ≤ n → motive l := by
    intro n
    induction n with
    | zero =>
      intro l hl
      cases l with
      | nil => exact base
      | cons c rest => exact absurd hl (by simp)
    | succ n ih =>
      intro l hl
      cases l with
      | nil => exact base
      | cons c rest =>
        cases hm : tryMatch (c :: rest) with
        | some t =>
          obtain ⟨m, rep, r⟩ := t
          refine step1 c rest m rep r hm (ih r ?_)
          have := tryMatch_length hm
          simp only [List.length_cons] at hl this
          omega
        | none =>
          refine step2 c rest hm (ih rest ?_)
          simp only [List.length_cons] at hl
          omega
  exact fun l => H l.length l (le_refl _)

/-- The measure for the `while prev != reps_blob` loop: the number of `)(`
adjacencies in the string.  Every productive substitution pass strictly
decreases it. -/
def countPP : Str → Nat
  | [] => 0
  | [_] => 0
  | a :: b :: t => (if a = ')' ∧ b = '(' then 1 else 0) + countPP (b :: t)

/-- Boundary term between a character and the string following it. -/
def bdh (a : Char) (l : Str) : Nat :=
  if a = ')' ∧ l.head? = some '(' then 1 else 0

/-- Boundary term between two adjacent strings. -/
def bdl (xs ys : Str) : Nat :=
  if xs.getLast? = some ')' ∧ ys.head? = some '(' then 1 else 0

theorem countPP_cons (a : Char) (l : Str) :
    countPP (a :: l) = bdh a l + countPP l := by
  cases l with
  | nil => simp [countPP, bdh]
  | cons b t => simp [countPP, bdh]

theorem countPP_append (xs ys : Str) :
    countPP (xs ++ ys) = countPP xs + bdl xs ys + countPP ys := by
  induction xs with
  | nil => simp [countPP, bdl]
  | cons x xs' ih =>
    cases xs' with
    | nil =>
      rw [List.cons_append, List.nil_append, countPP_cons]
      simp [countPP, bdl, bdh]
    | cons y t =>
      rw [List.cons_append, countPP_cons x ((y :: t) ++ ys), ih,
        countPP_cons x (y :: t)]
      have hb : bdh x ((y :: t) ++ ys) = bdh x (y :: t) := by simp [bdh]
      have hl : bdl (x :: y :: t) ys = bdl (y :: t) ys := by
        simp [bdl, List.getLast?_cons_cons]
      rw [hb, hl]
      omega

theorem countPP_zero {l : Str} (h : ∀ c ∈ l, c ≠ ')') : countPP l = 0 := by
  induction l with
  | nil => rfl
  | cons a t ih =>
    rw [countPP_cons]
    have ha : a ≠ ')' := h a (by simp)
    have : bdh a t = 0 := by simp [bdh, ha]
    rw [this, ih (fun c hc => h c (List.mem_cons_of_mem a hc))]

theorem getLast?_no_rp {l : Str} (h : ∀ c ∈ l, c ≠ ')') :
    l.getLast? ≠ some ')' := by
  intro hl
  cases l with
  | nil => exact absurd hl (by simp)
  | cons a t =>
    have hne : (a :: t) ≠ [] := by simp
    rw [List.getLast?_eq_getLast_of_ne_nil hne] at hl
    injection hl with hl
    exact h _ (List.getLast_mem hne) hl

theorem digit_ne_rp {c : Char} (h : c.isDigit = true) : c ≠ ')' := by
  intro he; subst he; exact absurd h (by decide)

theorem digit_ne_lp {c : Char} (h : c.isDigit = true) : c ≠ '(' := by
  intro he; subst he; exact absurd h (by decide)

theorem dot_ne_rp : ('.' : Char) ≠ ')' := by decide

/-- The facts needed about one `n(setting)` replacement piece. -/
theorem gsPiece_facts {s n : Str} (hn : numOK n) (hs : ∀ c ∈ s, c ≠ ')') :
    gsPiece s n ≠ [] ∧
    (∃ d, (gsPiece s n).head? = some d ∧ d ≠ '(') ∧
    (gsPiece s n).getLast? = some ')' ∧ countPP (gsPiece s n) = 0 := by
  obtain ⟨⟨d, ds, hnd, hdd⟩, hall⟩ := hn
  have hnrp : ∀ c ∈ n, c ≠ ')' := by
    intro c hc
    rcases hall c hc with h | h
    · exact digit_ne_rp h
    · rw [h]; exact dot_ne_rp
  refine ⟨by simp [gsPiece, hnd], ⟨d, ?_, digit_ne_lp hdd⟩, ?_, ?_⟩
  · rw [gsPiece, hnd]; rfl
  · have : gsPiece s n = (n ++ ('(' :: s)) ++ [')'] := by simp [gsPiece]
    rw [this, List.getLast?_append_cons]
    rfl
  · rw [gsPiece, countPP_append]
    have h1 : countPP n = 0 := countPP_zero hnrp
    have h2 : bdl n ('(' :: (s ++ [')'])) = 0 := by
      simp [bdl]
      intro hc
      exact absurd hc (getLast?_no_rp hnrp)
    have h3 : countPP ('(' :: (s ++ [')'])) = 0 := by
      rw [countPP_cons]
      have hb : bdh '(' (s ++ [')']) = 0 := by simp [bdh]
      rw [hb, countPP_append]
      have hc1 : countPP s = 0 := countPP_zero hs
      have hc2 : bdl s [')'] = 0 := by simp [bdl]
      have hc3 : countPP [')'] = 0 := rfl
      omega
    omega

/-- The facts needed about a whole replacement string `joinPlus pieces`. -/
theorem joinPlus_facts {ps : List Str}
    (h : ∀ p ∈ ps, p ≠ [] ∧ (∃ d, p.head? = some d ∧ d ≠ '(') ∧
         p.getLast? = some ')' ∧ countPP p = 0)
    (hne : ps ≠ []) :
    joinPlus ps ≠ [] ∧
    (∃ d, (joinPlus ps).head? = some d ∧ d ≠ '(') ∧
    (joinPlus ps).getLast? = some ')' ∧ countPP (joinPlus ps) = 0 := by
  induction ps with
  | nil => exact absurd rfl hne
  | cons p ps' ih =>
    cases ps' with
    | nil =>
      have := h p (by simp)
      simpa [joinPlus] using this
    | cons q t =>
      have hjoin : joinPlus (p :: q :: t) = p ++ '+' :: joinPlus (q :: t) := by
        simp [joinPlus]
      obtain ⟨hp1, ⟨d, hp2, hp2'⟩, hp3, hp4⟩ := h p (by simp)
      obtain ⟨ih1, ih2, ih3, ih4⟩ :=
        ih (fun x hx => h x (List.mem_cons_of_mem p hx)) (by simp)
      rw [hjoin]
      refine ⟨by simp [hp1], ⟨d, ?_, hp2'⟩, ?_, ?_⟩
      · cases p with
        | nil => exact absurd rfl hp1
        | cons a b => simpa using hp2
      · rw [List.getLast?_append_cons]
        cases hji : joinPlus (q :: t) with
        | nil => exact absurd hji ih1
        | cons a b =>
          rw [hji] at ih3
          rw [List.getLast?_cons_cons]
          exact ih3
      · rw [countPP_append, countPP_cons]
        have h1 : bdl p ('+' :: joinPlus (q :: t)) = 0 := by simp [bdl]
        have h2 : bdh '+' (joinPlus (q :: t)) = 0 := by simp [bdh]
        omega

/-- What `tryMatch` guarantees, reformulated for the measure argument. -/
theorem tryMatch_measure {l m rep r : Str} (h : tryMatch l = some (m, rep, r)) :
    l = m ++ r ∧ 1 ≤ countPP m ∧ m.getLast? = some ')' ∧
    rep ≠ [] ∧ (∃ d, rep.head? = some d ∧ d ≠ '(') ∧ countPP rep = 0 := by
  obtain ⟨hdec, ⟨mid, content, hm, hcont⟩, nums, s, hnums_ne, hrep, hnums, hs⟩ :=
    tryMatch_some h
  have hpieces : ∀ p ∈ nums.map (gsPiece s), p ≠ [] ∧
      (∃ d, p.head? = some d ∧ d ≠ '(') ∧ p.getLast? = some ')' ∧ countPP p = 0 := by
    intro p hp
    obtain ⟨n, hn, hpn⟩ := List.mem_map.1 hp
    subst hpn
    exact gsPiece_facts (hnums n hn) hs
  have hmapne : nums.map (gsPiece s) ≠ [] := by
    simpa using hnums_ne
  obtain ⟨j1, j2, j3, j4⟩ := joinPlus_facts hpieces hmapne
  refine ⟨hdec, ?_, ?_, by rw [hrep]; exact j1, by rw [hrep]; exact j2,
    by rw [hrep]; exact j4⟩
  · rw [hm, countPP_cons, countPP_append]
    have : countPP (')' :: '(' :: (content ++ [')'])) =
        1 + countPP ('(' :: (content ++ [')'])) := by
      rw [countPP_cons]
      simp [bdh]
    omega
  · have : m = (('(' :: mid) ++ (')' :: '(' :: content)) ++ [')'] := by
      rw [hm]; simp
    rw [this, List.getLast?_append_cons]
    rfl

/-- A pass can only begin with `(` if the original string did: every
replacement string begins with a digit. -/
theorem passG_head : ∀ {l : Str}, (passG l).head? = some '(' → l.head? = some '(' := by
  intro l
  refine passG_ind (fun l => (passG l).head? = some '(' → l.head? = some '(')
    ?_ ?_ ?_ l
  · simp [passG_nil]
  · intro c rest m rep r h ih
    intro _
    have hdec := (tryMatch_some h).1
    obtain ⟨mid, content, hm, _⟩ := (tryMatch_some h).2.1
    have hc : c = '(' := by
      have h2 : c :: rest = m ++ r := hdec
      rw [hm] at h2
      have h3 := congrArg List.head? h2
      simpa using h3
    rw [show (c :: rest).head? = some c from rfl, hc]
  · intro c rest h ih
    rw [passG_skip h]
    intro hh
    exact hh

theorem bdh_passG_le (c : Char) (rest : Str) :
    bdh c (passG rest) ≤ bdh c rest := by
  unfold bdh
  split
  · rename_i hcond
    obtain ⟨hc, hh⟩ := hcond
    rw [if_pos ⟨hc, passG_head hh⟩]
  · exact Nat.zero_le _

/-- Core measure computation for a position where `tryMatch` fires. -/
theorem matched_case_bound {c : Char} {rest m rep r : Str}
    (h : tryMatch (c :: rest) = some (m, rep, r))
    (ihle : countPP (passG r) ≤ countPP r) :
    countPP (passG (c :: rest)) + 1 ≤ countPP (c :: rest) := by
  obtain ⟨hdec, hm1, hmlast, hrne, ⟨d, hrh, hrh'⟩, hrz⟩ := tryMatch_measure h
  rw [passG_matched h, hdec, countPP_append, countPP_append, hrz]
  have hb : bdl rep (passG r) ≤ bdl m r := by
    unfold bdl
    split
    · rename_i hcond
      obtain ⟨_, hh⟩ := hcond
      rw [if_pos ⟨hmlast, passG_head hh⟩]
    · exact Nat.zero_le _
  omega

theorem passG_le : ∀ l : Str, countPP (passG l) ≤ countPP l := by
  intro l
  refine passG_ind (fun l => countPP (passG l) ≤ countPP l) ?_ ?_ ?_ l
  · show countPP (passG []) ≤ countPP []
    rw [passG_nil]
  · intro c rest m rep r h ih
    have := matched_case_bound h ih
    omega
  · intro c rest h ih
    rw [passG_skip h, countPP_cons, countPP_cons]
    have := bdh_passG_le c rest
    omega

theorem passG_lt : ∀ {l : Str}, passG l ≠ l → countPP (passG l) < countPP l := by
  intro l
  refine passG_ind (fun l => passG l ≠ l → countPP (passG l) < countPP l)
    ?_ ?_ ?_ l
  · intro hne; exact absurd passG_nil hne
  · intro c rest m rep r h ih
    intro _
    have := matched_case_bound h (passG_le r)
    omega
  · intro c rest h ih
    intro hne
    rw [passG_skip h] at hne ⊢
    have hrest : passG rest ≠ rest := by
      intro he; exact hne (by rw [he])
    have h1 := ih hrest
    have h2 := bdh_passG_le c rest
    rw [countPP_cons, countPP_cons]
    omega

/-- The `while prev != reps_blob` fixed-point loop, with explicit fuel. -/
def expandGo : Nat → Str → Option Str
  | 0, _ => none
  | n + 1, s => if passG s = s then some s else expandGo n (passG s)

/-- `expand_group_settings_trailing` with its termination made observable:
strip, then iterate `passG` to a fixed point; `none` only if the fuel
`countPP s + 1` were ever insufficient (it never is). -/
def expandLoopO (s : Str) : Option Str :=
  expandGo (countPP (pyStrip s) + 1) (pyStrip s)

/-- `expand_group_settings_trailing` from the source. -/
def expand_group_settings_trailing (s : Str) : Str :=
  (expandLoopO s).getD (pyStrip s)

theorem expandGo_total : ∀ n s, countPP s < n →
    ∃ t, expandGo n s = some t ∧ passG t = t := by
  intro n
  induction n with
  | zero => intro s h; exact absurd h (by omega)
  | succ n ih =>
    intro s h
    by_cases hf : passG s = s
    · exact ⟨s, by simp [expandGo, hf], hf⟩
    · obtain ⟨t, ht, hfix⟩ := ih (passG s) (by have := passG_lt hf; omega)
      exact ⟨t, by simp [expandGo, hf, ht], hfix⟩

/-- The fixed-point loop always terminates with a fixed point of the
rewrite, for every input string. -/
theorem expandLoopO_total (s : Str) :
    ∃ t, expandLoopO s = some t ∧ passG t = t :=
  expandGo_total _ _ (Nat.lt_succ_self _)

/-! ## `parse_weight`

`re.search(r"([0-9]+(?:\.[0-9]+)?)\s*(lb?s?|po|kg?s?)\b", txt, re.I)`:
the alternation is compiled to an ordered candidate list (the order in
which the backtracking engine would try the branches), the search to a
left-to-right scan. -/

/-- Python's word-character class `\w` (ASCII). -/
def isWordChar (c : Char) : Bool := c.isAlphanum || c = '_'

/-- `\b` on the right of a match: next character absent or not a word char. -/
def boundaryOK (l : Str) : Bool :=
  match l.head? with
  | none => true
  | some c => !(isWordChar c)

/-- Case-insensitive literal prefix match; returns the raw matched text. -/
def matchPrefixCI : Str → Str → Option (Str × Str)
  | [], l => some ([], l)
  | _ :: _, [] => none
  | c :: cs, x :: xs =>
    if x.toLower = c then
      match matchPrefixCI cs xs with
      | some (m, r) => some (x :: m, r)
      | none => none
    else none

theorem matchPrefixCI_some : ∀ {cand l m r : Str},
    matchPrefixCI cand l = some (m, r) → l = m ++ r := by
  intro cand
  induction cand with
  | nil =>
    intro l m r h
    unfold matchPrefixCI at h
    simp only [Option.some.injEq, Prod.mk.injEq] at h
    obtain ⟨h1, h2⟩ := h; subst h1; subst h2; rfl
  | cons c cs ih =>
    intro l m r h
    unfold matchPrefixCI at h
    cases l with
    | nil => exact absurd h (by simp)
    | cons x xs =>
      dsimp only at h
      by_cases hx : x.toLower = c
      · rw [if_pos hx] at h
        cases hm : matchPrefixCI cs xs with
        | none => rw [hm] at h; exact absurd h (by simp)
        | some mr =>
          obtain ⟨m2, r2⟩ := mr
          rw [hm] at h
          simp only [Option.some.injEq, Prod.mk.injEq] at h
          obtain ⟨h1, h2⟩ := h; subst h1; subst h2
          rw [ih hm]; rfl
      · rw [if_neg hx] at h; exact absurd h (by simp)

/-- The unit alternation `lb?s?|po|kg?s?`, in backtracking order. -/
def unitCands : List Str :=
  [['l','b','s'], ['l','b'], ['l','s'], ['l'], ['p','o'],
   ['k','g','s'], ['k','g'], ['k','s'], ['k']]

/-- Try the unit alternatives in order, requiring a word boundary after the
unit (backtracks to the next alternative when the boundary check fails). -/
def tryUnitsB : List Str → Str → Option (Str × Str)
  | [], _ => none
  | cand :: cs, l =>
    match matchPrefixCI cand l with
    | some (m, r) => if boundaryOK r then some (m, r) else tryUnitsB cs l
    | none => tryUnitsB cs l

theorem tryUnitsB_some : ∀ {cands : List Str} {l m r : Str},
    tryUnitsB cands l = some (m, r) → l = m ++ r := by
  intro cands
  induction cands with
  | nil => intro l m r h; exact absurd h (by simp [tryUnitsB])
  | cons cand cs ih =>
    intro l m r h
    unfold tryUnitsB at h
    cases hm : matchPrefixCI cand l with
    | none => rw [hm] at h; exact ih h
    | some mr =>
      obtain ⟨m2, r2⟩ := mr
      rw [hm] at h
      dsimp only at h
      by_cases hb : boundaryOK r2
      · rw [if_pos hb] at h
        simp only [Option.some.injEq, Prod.mk.injEq] at h
        obtain ⟨h1, h2⟩ := h; subst h1; subst h2
        exact matchPrefixCI_some hm
      · rw [if_neg hb] at h; exact ih h

/-- Numeric value of a digit string. -/
def natOfDigits (l : Str) : Nat := l.foldl (fun a c => 10 * a + (c.toNat - 48)) 0

/-- Exact rational value of a numeral `digits[.digits]` (Python floats are
modelled as exact rationals). -/
def ratOfNum (n : Str) : Rat :=
  (natOfDigits (n.takeWhile Char.isDigit) : Rat) +
    (natOfDigits ((n.dropWhile Char.isDigit).drop 1) : Rat) /
      (10 : Rat) ^ ((n.dropWhile Char.isDigit).drop 1).length

/-- One attempt of the weight pattern at the head of the string:
numeral, optional whitespace, unit, word boundary. -/
def weightAt (l : Str) : Option (Str × Rat × Str × Str) :=
  match pNumT l with
  | none => none
  | some (n, r1) =>
    match tryUnitsB unitCands (r1.dropWhile isPySpace) with
    | some (u, r2) =>
      some (n ++ (r1.takeWhile isPySpace ++ u), ratOfNum n, u.map Char.toLower, r2)
    | none => none

theorem weightAt_some {l m : Str} {v : Rat} {u post : Str}
    (h : weightAt l = some (m, v, u, post)) :
    l = m ++ post ∧ ∃ d ds, m = d :: ds ∧ d.isDigit = true := by
  unfold weightAt at h
  cases hn : pNumT l with
  | none => rw [hn] at h; exact absurd h (by simp)
  | some nr =>
    obtain ⟨n, r1⟩ := nr
    rw [hn] at h; dsimp only at h
    cases hu : tryUnitsB unitCands (r1.dropWhile isPySpace) with
    | none => rw [hu] at h; exact absurd h (by simp)
    | some ur =>
      obtain ⟨u2, r2⟩ := ur
      rw [hu] at h
      simp only [Option.some.injEq, Prod.mk.injEq] at h
      obtain ⟨h1, h2, h3, h4⟩ := h
      subst h1; subst h2; subst h3; subst h4
      obtain ⟨e1, ⟨d, ds, hnd, hdig⟩, _⟩ := pNumT_some hn
      have e2 : r1 = r1.takeWhile isPySpace ++ (u2 ++ r2) := by
        rw [← tryUnitsB_some hu]
        exact (r1.takeWhile_append_dropWhile isPySpace).symm
      refine ⟨?_, d, ds ++ (r1.takeWhile isPySpace ++ u2), by simp [hnd], hdig⟩
      conv_lhs => rw [e1, e2]
      simp

/-- `re.search`: leftmost match of the weight pattern.  Returns
(text before the match, matched text, value, lowercased unit, rest). -/
def searchWeight : Str → Option (Str × Str × Rat × Str × Str)
  | [] => none
  | c :: t =>
    match weightAt (c :: t) with
    | some (m, v, u, post) => some ([], m, v, u, post)
    | none =>
      match searchWeight t with
      | some (p, m, v, u, post) => some (c :: p, m, v, u, post)
      | none => none

theorem searchWeight_some : ∀ {l p m : Str} {v : Rat} {u post : Str},
    searchWeight l = some (p, m, v, u, post) →
    l = p ++ m ++ post ∧ ∃ d ds, m = d :: ds ∧ d.isDigit = true := by
  intro l
  induction l with
  | nil => intro p m v u post h; exact absurd h (by simp [searchWeight])
  | cons c t ih =>
    intro p m v u post h
    unfold searchWeight at h
    cases hw : weightAt (c :: t) with
    | some q =>
      obtain ⟨m2, v2, u2, post2⟩ := q
      rw [hw] at h
      simp only [Option.some.injEq, Prod.mk.injEq] at h
      obtain ⟨h1, h2, h3, h4, h5⟩ := h
      subst h1; subst h2; subst h3; subst h4; subst h5
      obtain ⟨hdec, hd⟩ := weightAt_some hw
      exact ⟨by simpa using hdec, hd⟩
    | none =>
      rw [hw] at h; dsimp only at h
      cases hs : searchWeight t with
      | none => rw [hs] at h; exact absurd h (by simp)
      | some q =>
        obtain ⟨p2, m2, v2, u2, post2⟩ := q
        rw [hs] at h
        simp only [Option.some.injEq, Prod.mk.injEq] at h
        obtain ⟨h1, h2, h3, h4, h5⟩ := h
        subst h1; subst h2; subst h3; subst h4; subst h5
        obtain ⟨hdec, hd⟩ := ih hs
        exact ⟨by rw [hdec]; simp, hd⟩

/-- `KG_TO_LB` from the source. -/
def KG_TO_LB : Rat := (22046226218 : Rat) / 10000000000

/-- `unit_raw.startswith("kg")` (on the lowercased unit). -/
def startsKg (u : Str) : Bool := u.take 2 = ['k', 'g']

/-- `parse_weight` from the source: `(weight_lbs?, rest, unit_raw)`. -/
def parse_weight (cell : Option Str) : Option Rat × Str × Str :=
  match cell with
  | none => (none, [], [])
  | some txt =>
    if pyStrip txt = [] then (none, [], [])
    else
      match searchWeight txt with
      | none => (none, txt, [])
      | some (_, _, v, u, post) =>
        (some (if startsKg u then v * KG_TO_LB else v), pyStrip post, u)

/-! ## `split_reps_segments` and its helpers -/

/-- `"s".split("+")`. -/
def splitPlus : Str → List Str
  | [] => [[]]
  | c :: t =>
    if c = '+' then [] :: splitPlus t
    else
      match splitPlus t with
      | [] => [[c]]
      | h :: r => (c :: h) :: r

/-- `[RLrl]`. -/
def isRL (c : Char) : Bool := c = 'R' || c = 'L' || c = 'r' || c = 'l'

/-- `(?:\*([0-9]+))?$`: either nothing, or `*digits`, to the end of the
token; `none` when the remainder is not of that shape. -/
def starNum (l : Str) : Option (Option Str) :=
  if l = [] then some none
  else
    match expectC '*' l with
    | some r =>
      match pDigitsT r with
      | some (d, r2) => if r2 = [] then some (some d) else none
      | none => none
    | none => none

/-- `normalize_side_prefix_tokens` on one token: rewrite `R12` to `12R`,
`L9HA*2` to `9LHA*2`; leave non-matching tokens unchanged. -/
def sidePrefTok (t : Str) : Str :=
  match t with
  | [] => t
  | c :: rest =>
    if isRL c then
      match pNumT (rest.dropWhile isPySpace) with
      | none => t
      | some (n, r2) =>
        match starNum (r2.dropWhile Char.isAlpha) with
        | none => t
        | some mult =>
          n ++ (c.toUpper :: (r2.takeWhile Char.isAlpha).map Char.toUpper) ++
            (match mult with
             | none => []
             | some d => '*' :: d)
    else t

/-- `normalize_side_prefix_tokens` from the source. -/
def normalize_side_prefix_tokens (blob : Str) : Str :=
  joinPlus ((((splitPlus blob).map pyStrip).filter (fun t => t ≠ [])).map sidePrefTok)

/-- `\(([^)]+)\)` at the head of the string: (content, rest). -/
def parseParen (l : Str) : Option (Str × Str) :=
  match expectC '(' l with
  | none => none
  | some r =>
    if takeNotRp r = [] then none
    else
      match expectC ')' (dropNotRp r) with
      | some r2 => some (takeNotRp r, r2)
      | none => none

/-- `^\(([^)]+)\)\s*(.+)$` (`m_lead`): the leading parenthesized group and
the remainder; the greedy `\s*` gives one blank back when `.+` would
otherwise be empty. -/
def mLead (blob : Str) : Option (Str × Str) :=
  match parseParen blob with
  | none => none
  | some (content, r) =>
    if r = [] then none
    else some (content, r.drop (min (r.takeWhile isPySpace).length (r.length - 1)))

/-- One structured segment of a reps blob. -/
structure Seg where
  reps_raw : Str
  reps : Rat
  side : Option Str
  seg_note : Option Str
  setting : Option Str
deriving DecidableEq

/-- `(m.group(k) or "").strip() or None`. -/
def optSetting (s : Option Str) : Option Str :=
  match s with
  | none => none
  | some c => if pyStrip c = [] then none else some (pyStrip c)

/-- Tie-break: segment-leading setting, then segment-trailing setting, then
the inherited group setting. -/
def chooseSetting (gs lead tr : Option Str) : Option Str :=
  match lead with
  | some s => some s
  | none =>
    match tr with
    | some s => some s
    | none => gs

/-- `GLOBAL_TO_FEELING = {"LLP"}`. -/
def GLOBAL_TO_FEELING : List Str := [['L', 'L', 'P']]

/-- Tail of the segment grammar after the optional trailing setting:
`([A-Za-z]*)(?:\*([0-9]+))?$`; returns (suffix uppercased, multiplier). -/
def segMatchSuffix (lead : Option Str) (reps : Rat) (tr : Option Str) (r3 : Str) :
    Option (Option Str × Rat × Option Str × Str × Nat) :=
  match starNum (r3.dropWhile Char.isAlpha) with
  | none => none
  | some multd =>
    some (lead, reps, tr, (r3.takeWhile Char.isAlpha).map Char.toUpper,
          match multd with
          | none => 1
          | some d => natOfDigits d)

/-- Optional trailing `(setting)` after the rep count. -/
def segMatchTrail (lead : Option Str) (reps : Rat) (r2 : Str) :
    Option (Option Str × Rat × Option Str × Str × Nat) :=
  if r2.head? = some '(' then
    match parseParen r2 with
    | none => none
    | some (tr, r3) => segMatchSuffix lead reps (some tr) r3
  else segMatchSuffix lead reps none r2

/-- The required numeric rep count. -/
def segMatchNum (lead : Option Str) (r1 : Str) :
    Option (Option Str × Rat × Option Str × Str × Nat) :=
  match pNumT r1 with
  | none => none
  | some (n, r2) => segMatchTrail lead (ratOfNum n) r2

/-- The full anchored segment grammar
`^(?:\(([^)]+)\))?([0-9]+(?:\.[0-9]+)?)(?:\(([^)]+)\))?([A-Za-z]*)(?:\*([0-9]+))?$`:
returns (leading setting, reps, trailing setting, uppercased suffix,
multiplier), or `none` when the segment does not match. -/
def segMatch (seg : Str) : Option (Option Str × Rat × Option Str × Str × Nat) :=
  if seg.head? = some '(' then
    match parseParen seg with
    | none => none
    | some (lead, r1) => segMatchNum (some lead) r1
  else segMatchNum none seg

/-- Build the `Seg` records for one matched segment (the `*N` multiplier
replicates it), together with any promoted global feeling. -/
def segsOfMatch (gs : Option Str) (seg : Str)
    (m : Option Str × Rat × Option Str × Str × Nat) : List Seg × List Str :=
  match m with
  | (lead, reps, tr, suffix, mult) =>
    (List.replicate mult
      { reps_raw := seg, reps := reps,
        side := if suffix = ['R'] || suffix = ['L'] then some suffix else none,
        seg_note :=
          if suffix ≠ [] && !(suffix = ['R'] || suffix = ['L']) &&
             !(GLOBAL_TO_FEELING.contains suffix) then some suffix else none,
        setting := chooseSetting gs (optSetting lead) (optSetting tr) },
     if suffix ≠ [] && !(suffix = ['R'] || suffix = ['L']) &&
        GLOBAL_TO_FEELING.contains suffix then [suffix] else [])

/-- The per-token loop of `split_reps_segments`: strip each `+`-separated
token, skip empty ones, parse with the segment grammar, and degrade
non-matching tokens to feelings. -/
def procSegs (gs : Option Str) : List Str → List Seg × List Str
  | [] => ([], [])
  | t :: ts =>
    match procSegs gs ts with
    | (segs, feels) =>
      if pyStrip t = [] then (segs, feels)
      else
        match segMatch (pyStrip t) with
        | none => (segs, pyStrip t :: feels)
        | some m =>
          match segsOfMatch gs (pyStrip t) m with
          | (s1, f1) => (s1 ++ segs, f1 ++ feels)

/-- Stages of `split_reps_segments` after `m_lead`: side-prefix
normalization, `+`-splitting, and the segment loop; `tail` (if any) seeds
the feelings list. -/
def procWrap (gs : Option Str) (rb tail : Str) : List Seg × List Str :=
  match procSegs gs (splitPlus (normalize_side_prefix_tokens rb)) with
  | (segs, feels) => (segs, (if tail ≠ [] then [tail] else []) ++ feels)

/-- `m_lead` extraction of a leading `(setting)`, then the segment loop. -/
def splitCore2 (eb tail : Str) : List Seg × List Str :=
  match mLead eb with
  | some (st, rb) =>
    procWrap (if pyStrip st = [] then none else some (pyStrip st)) (pyStrip rb) tail
  | none => procWrap none eb tail

/-- `split_reps_segments` after the `mr` split, with the group-setting
expansion loop made observable (`none` = the loop fuel ran out, which never
happens). -/
def splitCore (reps_blob tail : Str) : Option (List Seg × List Str) :=
  if reps_blob.any Char.isDigit then
    match expandLoopO reps_blob with
    | none => none
    | some eb => some (splitCore2 eb tail)
  else some ([], [if tail ≠ [] then tail else reps_blob])

/-- The lazy `re.match(r"^([0-9A-Za-z\.\(\)\+\* ]+?)(?:\s+|$)(.*)$", rest)`:
character class test. -/
def mrClass (c : Char) : Bool :=
  c.isDigit || c.isAlpha || c = '.' || c = '(' || c = ')' || c = '+' ||
    c = '*' || c = ' '

/-- Lazy scan for the shortest nonempty class-prefix followed by whitespace
or the end of the string; the tail is the remainder after the greedy
`\s+`. -/
def mrGo (acc : Str) : Str → Option (Str × Str)
  | [] => some (acc.reverse, [])
  | c :: rest =>
    if isPySpace c then some (acc.reverse, (c :: rest).dropWhile isPySpace)
    else if mrClass c then mrGo (c :: acc) rest
    else none

/-- The `mr` match: `some (group 1, group 2)` or `none`. -/
def mrSplit (rest : Str) : Option (Str × Str) :=
  match rest with
  | [] => none
  | c :: t => if mrClass c then mrGo [c] t else none

/-- `split_reps_segments` from the source, with the expansion-loop fuel
made observable. -/
def split_reps_segmentsT (rest0 : Str) : Option (List Seg × List Str) :=
  match mrSplit (normalize_tokens rest0) with
  | some (g, t) => splitCore (pyStrip g) (pyStrip t)
  | none => splitCore (normalize_tokens rest0) []

/-- `split_reps_segments` from the source (total form). -/
def split_reps_segments (rest0 : Str) : List Seg × List Str :=
  (split_reps_segmentsT rest0).getD ([], [])

/-! ## `parse_side_weight_pairs` and `parse_entry_cell` -/

/-- Fuelled decimal-digit writer. -/
def natToDigitsF : Nat → Nat → Str
  | 0, _ => []
  | f + 1, n =>
    if n < 10 then [Char.ofNat (48 + n)]
    else natToDigitsF f (n / 10) ++ [Char.ofNat (48 + n % 10)]

/-- Decimal digits of a natural number. -/
def natToDigits (n : Nat) : Str := natToDigitsF (n + 1) n

/-- Digits of the fractional part `rem/den` (no trailing zeros; enough fuel
for every denominator arising from decimal numerals). -/
def fracDigits : Nat → Nat → Nat → Str
  | _, _, 0 => []
  | rem, den, f + 1 =>
    if rem = 0 then []
    else Char.ofNat (48 + rem * 10 / den) :: fracDigits (rem * 10 % den) den f

/-- Python `f"{int(x) if x.is_integer() else x}"` for the nonnegative
decimal-valued rationals produced by the parser. -/
def fmtRat (q : Rat) : Str :=
  if q.den = 1 then natToDigits q.num.toNat
  else
    natToDigits (q.num.toNat / q.den) ++
      '.' :: fracDigits (q.num.toNat % q.den) q.den 12

/-- A parsed part of one cell (the `dict` of the source). -/
structure Part where
  weight_lbs : Option Rat
  reps : Rat
  side : Option Str
  setting : Option Str
  segment_note : Option Str
  reps_raw_part : Option Str
  weight_unit_raw : Str
  feeling : Option Str
deriving DecidableEq

/-- Numeral with a trailing word boundary (the final `\b` of the
side/weight-pair pattern): the fractional part is given back when it would
break the boundary. -/
def pNumB (l : Str) : Option (Str × Str) :=
  match pNumT l with
  | none => none
  | some (n, r) =>
    if boundaryOK r then some (n, r)
    else
      match pDigitsT l with
      | some (d, r2) => if boundaryOK r2 then some (d, r2) else none
      | none => none

theorem pNumB_length {l n r : Str} (h : pNumB l = some (n, r)) :
    r.length < l.length := by
  unfold pNumB at h
  cases hn : pNumT l with
  | none => rw [hn] at h; exact absurd h (by simp)
  | some nr =>
    obtain ⟨n2, r2⟩ := nr
    rw [hn] at h; dsimp only at h
    by_cases hb : boundaryOK r2
    · rw [if_pos hb] at h
      simp only [Option.some.injEq, Prod.mk.injEq] at h
      obtain ⟨h1, h2⟩ := h; subst h1; subst h2
      exact pNumT_length hn
    · rw [if_neg hb] at h
      cases hd : pDigitsT l with
      | none => rw [hd] at h; exact absurd h (by simp)
      | some dr =>
        obtain ⟨d, r3⟩ := dr
        rw [hd] at h; dsimp only at h
        by_cases hb2 : boundaryOK r3
        · rw [if_pos hb2] at h
          simp only [Option.some.injEq, Prod.mk.injEq] at h
          obtain ⟨h1, h2⟩ := h; subst h1; subst h2
          obtain ⟨e, hne, _⟩ := pDigitsT_some hd
          rw [e]
          cases d with
          | nil => exact absurd rfl hne
          | cons a b => simp only [List.cons_append, List.length_cons,
              List.length_append]; omega
        · rw [if_neg hb2] at h; exact absurd h (by simp)

/-- The unit-then-reps tail of the side/weight-pair pattern, trying the
unit alternatives in order with full backtracking into the alternation. -/
def swrUnitNum : List Str → Str → Option (Str × Str × Str)
  | [], _ => none
  | cand :: cs, l =>
    match matchPrefixCI cand l with
    | some (u, r) =>
      match pNumB (r.dropWhile isPySpace) with
      | some (n, r2) => some (u, n, r2)
      | none => swrUnitNum cs l
    | none => swrUnitNum cs l

theorem swrUnitNum_length : ∀ {cands : List Str} {l u n r : Str},
    swrUnitNum cands l = some (u, n, r) → r.length ≤ l.length := by
  intro cands
  induction cands with
  | nil => intro l u n r h; exact absurd h (by simp [swrUnitNum])
  | cons cand cs ih =>
    intro l u n r h
    unfold swrUnitNum at h
    cases hm : matchPrefixCI cand l with
    | none => rw [hm] at h; exact ih h
    | some mr =>
      obtain ⟨u2, r2⟩ := mr
      rw [hm] at h; dsimp only at h
      cases hn : pNumB (r2.dropWhile isPySpace) with
      | none => rw [hn] at h; exact ih h
      | some nr =>
        obtain ⟨n2, r3⟩ := nr
        rw [hn] at h
        simp only [Option.some.injEq, Prod.mk.injEq] at h
        obtain ⟨h1, h2, h3⟩ := h; subst h1; subst h2; subst h3
        calc r3.length ≤ (r2.dropWhile isPySpace).length :=
              Nat.le_of_lt (pNumB_length hn)
          _ ≤ r2.length := dropWhile_len_le _ r2
          _ ≤ l.length := by
              rw [matchPrefixCI_some hm]; simp

/-- One attempt of
`\b([RLrl])\s*([0-9]+(?:\.[0-9]+)?)\s*(lb?s?|po|kg?s?)\s*([0-9]+(?:\.[0-9]+)?)\b`
at the head (the leading `\b` is checked by the caller):
returns (side char, weight numeral, raw unit, reps numeral, rest). -/
def swrTry (l : Str) : Option (Char × Str × Str × Str × Str) :=
  match l with
  | [] => none
  | c :: r0 =>
    if isRL c then
      match pNumT (r0.dropWhile isPySpace) with
      | none => none
      | some (n1, r1) =>
        match swrUnitNum unitCands (r1.dropWhile isPySpace) with
        | none => none
        | some (u, n2, r2) => some (c, n1, u, n2, r2)
    else none

theorem swrTry_length {l : Str} {c : Char} {n1 u n2 r2 : Str}
    (h : swrTry l = some (c, n1, u, n2, r2)) : r2.length < l.length := by
  unfold swrTry at h
  cases l with
  | nil => exact absurd h (by simp)
  | cons x r0 =>
    dsimp only at h
    by_cases hx : isRL x
    · rw [if_pos hx] at h
      cases hn : pNumT (r0.dropWhile isPySpace) with
      | none => rw [hn] at h; exact absurd h (by simp)
      | some nr =>
        obtain ⟨m1, q1⟩ := nr
        rw [hn] at h; dsimp only at h
        cases hu : swrUnitNum unitCands (q1.dropWhile isPySpace) with
        | none => rw [hu] at h; exact absurd h (by simp)
        | some ur =>
          obtain ⟨u2, m2, q2⟩ := ur
          rw [hu] at h
          simp only [Option.some.injEq, Prod.mk.injEq] at h
          obtain ⟨_, _, _, _, h5⟩ := h
          subst h5
          calc q2.length ≤ (q1.dropWhile isPySpace).length := swrUnitNum_length hu
            _ ≤ q1.length := dropWhile_len_le _ q1
            _ < (r0.dropWhile isPySpace).length + 1 :=
                Nat.lt_succ_of_le (Nat.le_of_lt (pNumT_length hn))
            _ ≤ r0.length + 1 := by
                have := dropWhile_len_le isPySpace r0; omega
            _ = (x :: r0).length := by simp
    · rw [if_neg hx] at h; exact absurd h (by simp)

/-- Build a `Part` out of one matched side/weight pair. -/
def mkSwrPart (sd : Char) (n1 u n2 : Str) : Part :=
  { weight_lbs := some (if startsKg (u.map Char.toLower) then ratOfNum n1 * KG_TO_LB
                        else ratOfNum n1)
    reps := ratOfNum n2
    side := some [sd.toUpper]
    setting := none
    segment_note := none
    reps_raw_part := some (fmtRat (ratOfNum n2) ++ [sd.toUpper])
    weight_unit_raw := u.map Char.toLower
    feeling := none }

/-- `pat.finditer` with span removal: parts in match order and the leftover
text (non-matched characters, in order). -/
def swrGoF : Nat → Option Char → Str → List Part × Str
  | _, _, [] => ([], [])
  | 0, _, l => ([], l)
  | f + 1, prev, c :: rest =>
    if isRL c && !(match prev with
                   | none => false
                   | some p => isWordChar p) then
      match swrTry (c :: rest) with
      | some (sd, n1, u, n2, r2) =>
        match swrGoF f (some '0') r2 with
        | (ps, leftover) => (mkSwrPart sd n1 u n2 :: ps, leftover)
      | none =>
        match swrGoF f (some c) rest with
        | (ps, leftover) => (ps, c :: leftover)
    else
      match swrGoF f (some c) rest with
      | (ps, leftover) => (ps, c :: leftover)

/-- See the doc comment above: fuelled with the input length, which always
suffices because every step consumes at least one character. -/
def swrGo (prev : Option Char) (l : Str) : List Part × Str :=
  swrGoF l.length prev l

/-- `parse_side_weight_pairs` from the source: the parts and the leftover
feeling (`leftover.strip() or None`). -/
def parse_side_weight_pairs (txt : Str) : List Part × Option Str :=
  match swrGo none (normalize_tokens txt) with
  | (ps, leftover) =>
    (ps, if pyStrip leftover = [] then none else some (pyStrip leftover))

/-- `" | ".join`. -/
def joinSepBar : List Str → Str
  | [] => []
  | [f] => f
  | f :: g :: t => f ++ ' ' :: '|' :: ' ' :: joinSepBar (g :: t)

/-- `" | ".join([f for f in (x.strip() for x in fs) if f]) or None`. -/
def joinFeelings (fs : List Str) : Option Str :=
  if ((fs.map pyStrip).filter (fun f => f ≠ [])) = [] then none
  else some (joinSepBar ((fs.map pyStrip).filter (fun f => f ≠ [])))

/-- Attach the leftover of the side/weight fast path as the shared feeling. -/
def applyLeftover (lo : Option Str) (ps : List Part) : List Part :=
  match lo with
  | none => ps
  | some f => ps.map (fun p => { p with feeling := some f })

/-- Materialize one generic segment into a `Part` (weight, unit and feeling
are cell-scoped). -/
def mkSegPart (lbs : Option Rat) (unit : Str) (feel : Option Str) (s : Seg) : Part :=
  { weight_lbs := lbs, reps := s.reps, side := s.side, setting := s.setting,
    segment_note := s.seg_note, reps_raw_part := some s.reps_raw,
    weight_unit_raw := unit, feeling := feel }

/-- The generic branch of `parse_entry_cell`: segments if any, otherwise the
12-rep fallback when a weight was found, otherwise no parts. -/
def buildGeneric (lbs : Option Rat) (unit : Str) (segs : List Seg) (gf : List Str) :
    List Part :=
  if segs ≠ [] then segs.map (mkSegPart lbs unit (joinFeelings gf))
  else
    match lbs with
    | some v =>
      [{ weight_lbs := some v, reps := 12, side := none, setting := none,
         segment_note := none, reps_raw_part := none,
         weight_unit_raw := unit, feeling := joinFeelings gf }]
    | none => []

/-- `parse_entry_cell` after weight extraction. -/
def pecAfterWeight (lbs : Option Rat) (unit : Str) (rest : Str) :
    Option (List Part) :=
  match parse_side_weight_pairs rest with
  | (ps, lo) =>
    if ps ≠ [] then some (applyLeftover lo ps)
    else
      match split_reps_segmentsT rest with
      | none => none
      | some (segs, gf) => some (buildGeneric lbs unit segs gf)

/-- `parse_entry_cell` from the source, with the expansion-loop fuel made
observable (`none` = fuel exhausted, which never happens). -/
def parse_entry_cellT (cell : Option Str) : Option (List Part) :=
  match parse_weight cell with
  | (lbs, rest_raw, unit) => pecAfterWeight lbs unit (normalize_tokens rest_raw)

/-- `parse_entry_cell` from the source (total form). -/
def parse_entry_cell (cell : Option Str) : List Part :=
  (parse_entry_cellT cell).getD []

/-! ## `flatten_one` / `flatten_many`

The embedding starts from the melted long-form rows (one record per
exercise × set-row × date with a non-blank cell); dates are modelled as
naturals (their calendar order), since `pd.to_datetime` on the strictly
validated `YYYY.MM.DD` headers is order-isomorphic to it.  The CSV
serialization of the non-empty branch is a plain comma/newline join (cells
in scope contain neither commas nor quotes). -/

/-- One melted long-form row. -/
structure CellRow where
  exercise : Str
  set_row : Nat
  date : Nat
  entry : Str
deriving DecidableEq

/-- One output row of `flatten_one` (`set_number = 0` until assigned). -/
structure FlatRow where
  date : Nat
  exercise : Str
  weight_lbs : Option Rat
  reps : Rat
  side : Option Str
  setting : Option Str
  segment_note : Option Str
  feeling : Option Str
  reps_raw_part : Option Str
  raw_cell : Str
  weight_unit_raw : Str
  set_row : Nat
  part_idx : Nat
  source_file : Str
  set_number : Nat
deriving DecidableEq

/-- Python's banker's rounding (on the exact rational value). -/
def roundHalfEven (q : Rat) : Int :=
  if q - q.floor < 1 / 2 then q.floor
  else if q - q.floor > 1 / 2 then q.floor + 1
  else if q.floor % 2 = 0 then q.floor else q.floor + 1

/-- `round(x, 2)`. -/
def round2 (q : Rat) : Rat := (roundHalfEven (q * 100) : Rat) / 100

/-- `enumerate(parts, start=n)`. -/
def enumFrom (n : Nat) : List Part → List (Nat × Part)
  | [] => []
  | p :: ps => (n, p) :: enumFrom (n + 1) ps

/-- Materialize one part of one cell into a `FlatRow`. -/
def partRow (r : CellRow) (src : Str) (ip : Nat × Part) : FlatRow :=
  { date := r.date, exercise := r.exercise,
    weight_lbs := ip.2.weight_lbs.map round2,
    reps := ip.2.reps, side := ip.2.side, setting := ip.2.setting,
    segment_note := ip.2.segment_note, feeling := ip.2.feeling,
    reps_raw_part := ip.2.reps_raw_part, raw_cell := r.entry,
    weight_unit_raw := ip.2.weight_unit_raw, set_row := r.set_row,
    part_idx := ip.1, source_file := src, set_number := 0 }

/-- The row-building loop of `flatten_one` (blank cells are filtered out
before parsing, as in the melt filter). -/
def rawRows (rows : List CellRow) (src : Str) : List FlatRow :=
  ((rows.filter (fun r => pyStrip r.entry ≠ [])).map
    (fun r => (enumFrom 1 (parse_entry_cell (some r.entry))).map (partRow r src))).join

/-- Lexicographic comparison of strings by code point. -/
def strLtB : Str → Str → Bool
  | [], [] => false
  | [], _ :: _ => true
  | _ :: _, [] => false
  | a :: as, b :: bs => a < b || (a = b && strLtB as bs)

/-- `sort_values(["exercise","date","_set_row","_part_idx"])`. -/
def keyLtB (a b : FlatRow) : Bool :=
  strLtB a.exercise b.exercise ||
    (a.exercise == b.exercise &&
      (a.date < b.date ||
        (a.date == b.date &&
          (a.set_row < b.set_row ||
            (a.set_row == b.set_row && a.part_idx < b.part_idx)))))

/-- Stable insertion into a sorted list. -/
def insertBy (lt : FlatRow → FlatRow → Bool) (x : FlatRow) :
    List FlatRow → List FlatRow
  | [] => [x]
  | y :: ys => if lt x y then x :: y :: ys else y :: insertBy lt x ys

/-- Stable insertion sort (keys in scope are distinct, so any correct sort
agrees with it). -/
def sortBy (lt : FlatRow → FlatRow → Bool) : List FlatRow → List FlatRow
  | [] => []
  | x :: xs => insertBy lt x (sortBy lt xs)

/-- The `(date, exercise)` grouping of `groupby(["date","exercise"])`. -/
def sameGroupB (s r : FlatRow) : Bool :=
  s.date == r.date && s.exercise == r.exercise

/-- `groupby(["date","exercise"]).cumcount() + 1` over the sorted rows:
1 plus the number of already-seen rows of the same group. -/
def assignGo (acc : List FlatRow) : List FlatRow → List FlatRow
  | [] => []
  | r :: t =>
    { r with set_number := 1 + acc.countP (fun s => sameGroupB s r) } ::
      assignGo (r :: acc) t

/-- `flatten_one` from the source (from the melted long rows on). -/
def flatten_one (rows : List CellRow) (src : Str) : List FlatRow :=
  assignGo [] (sortBy keyLtB (rawRows rows src))

/-- `sort_values(["date","exercise","set_number","source_file"])` of
`flatten_many`. -/
def key2LtB (a b : FlatRow) : Bool :=
  a.date < b.date ||
    (a.date == b.date &&
      (strLtB a.exercise b.exercise ||
        (a.exercise == b.exercise &&
          (a.set_number < b.set_number ||
            (a.set_number == b.set_number && strLtB a.source_file b.source_file)))))

/-- Column headers of the `_full` view. -/
def fullHeader : Str :=
  ("date,exercise,set_number,weight_lbs,reps,side,setting,segment_note,feeling,reps_raw_part,raw_cell,weight_unit_raw,_set_row,_part_idx,source_file").toList

/-- Column headers of the `_clean` view. -/
def cleanHeader : Str :=
  ("date,exercise,set_number,weight_lbs,reps,side,setting,segment_note,feeling,reps_raw_part,raw_cell,source_file").toList

/-- Render an optional text field (missing → empty cell). -/
def optStr : Option Str → Str
  | none => []
  | some x => x

/-- Render a float column value. -/
def renderFloat (q : Rat) : Str :=
  if q.den = 1 then natToDigits q.num.toNat ++ ['.', '0']
  else fmtRat q

/-- Render an optional float column value. -/
def renderOptFloat : Option Rat → Str
  | none => []
  | some q => renderFloat q

/-- `",".join`. -/
def commaJoin : List Str → Str
  | [] => []
  | [f] => f
  | f :: g :: t => f ++ ',' :: commaJoin (g :: t)

/-- One serialized `_full` row. -/
def fullRowFields (r : FlatRow) : List Str :=
  [natToDigits r.date, r.exercise, natToDigits r.set_number,
   renderOptFloat r.weight_lbs, renderFloat r.reps, optStr r.side,
   optStr r.setting, optStr r.segment_note, optStr r.feeling,
   optStr r.reps_raw_part, r.raw_cell, r.weight_unit_raw,
   natToDigits r.set_row, natToDigits r.part_idx, r.source_file]

/-- One serialized `_clean` row. -/
def cleanRowFields (r : FlatRow) : List Str :=
  [natToDigits r.date, r.exercise, natToDigits r.set_number,
   renderOptFloat r.weight_lbs, renderFloat r.reps, optStr r.side,
   optStr r.setting, optStr r.segment_note, optStr r.feeling,
   optStr r.reps_raw_part, r.raw_cell, r.source_file]

/-- Join lines, a newline after each (as `to_csv` does). -/
def nlJoin : List Str → Str
  | [] => []
  | f :: t => f ++ '\n' :: nlJoin t

/-- A serialized tabular view: header line then one line per row. -/
def toCsv (header : Str) (rows : List Str) : Str := nlJoin (header :: rows)

/-! ## Idempotence machinery for `normalize_tokens` -/

/-- No whitespace adjacent to the operator `op`, as a relation on adjacent
characters. -/
def okOp (op : Char) (a b : Char) : Prop :=
  ¬(isPySpace a = true ∧ b = op) ∧ ¬(a = op ∧ isPySpace b = true)

/-- No two adjacent whitespace characters. -/
def noWW (a b : Char) : Prop := ¬(isPySpace a = true ∧ isPySpace b = true)

theorem head?_dropWhile_not {p : Char → Bool} : ∀ {l : Str} {c : Char},
    (l.dropWhile p).head? = some c → p c = false := by
  intro l
  induction l with
  | nil => intro c h; simp at h
  | cons a t ih =>
    intro c h
    by_cases hp : p a
    · rw [List.dropWhile_cons_of_pos hp] at h; exact ih h
    · rw [List.dropWhile_cons_of_neg hp] at h
      injection h with h; subst h
      simpa using hp

theorem subOp_ne_nil {op : Char} {l : Str} (h : l ≠ []) : subOp op l ≠ [] := by
  cases l with
  | nil => exact absurd rfl h
  | cons c rest =>
    cases hm : tryOpMatch op (c :: rest) with
    | some r => rw [subOp_matched hm]; simp
    | none => rw [subOp_skip hm]; simp

theorem subOp_head {op : Char} {l : Str} {d : Char}
    (h : (subOp op l).head? = some d) : d = op ∨ l.head? = some d := by
  cases l with
  | nil => rw [subOp_nil] at h; exact absurd h (by simp)
  | cons c rest =>
    cases hm : tryOpMatch op (c :: rest) with
    | some r =>
      rw [subOp_matched hm] at h
      injection h with h
      exact Or.inl h.symm
    | none =>
      rw [subOp_skip hm] at h
      exact Or.inr h

theorem tryOpMatch_ws_cons {op c : Char} {rest : Str} (hc : isPySpace c = true) :
    tryOpMatch op (c :: rest) = tryOpMatch op rest := by
  unfold tryOpMatch
  rw [List.dropWhile_cons_of_pos hc]

theorem tryOpMatch_head_op {op : Char} {l : Str} (hop : isPySpace op = false)
    (h : l.head? = some op) :
    tryOpMatch op l = some (l.tail.dropWhile isPySpace) := by
  cases l with
  | nil => exact absurd h (by simp)
  | cons c rest =>
    injection h with h; subst h
    unfold tryOpMatch
    rw [List.dropWhile_cons_of_neg (by simp [hop])]
    simp

theorem tryOpMatch_rest_head {op : Char} {l r : Str} (h : tryOpMatch op l = some r)
    {x : Char} (hx : r.head? = some x) : isPySpace x = false := by
  unfold tryOpMatch at h
  cases hd : l.dropWhile isPySpace with
  | nil => rw [hd] at h; exact absurd h (by simp)
  | cons c t =>
    rw [hd] at h
    by_cases hc : c = op
    · simp only [hc, if_true, Option.some.injEq] at h
      subst h
      exact head?_dropWhile_not hx
    · simp [hc] at h

theorem tryOpMatch_suffix {op : Char} {l r : Str} (h : tryOpMatch op l = some r) :
    r <:+ l := by
  unfold tryOpMatch at h
  cases hd : l.dropWhile isPySpace with
  | nil => rw [hd] at h; exact absurd h (by simp)
  | cons c t =>
    rw [hd] at h
    by_cases hc : c = op
    · simp only [hc, if_true, Option.some.injEq] at h
      subst h
      have h1 : t.dropWhile isPySpace <:+ t := List.dropWhile_suffix _
      have h2 : t <:+ c :: t := List.suffix_cons c t
      have h3 : c :: t <:+ l := by rw [← hd]; exact List.dropWhile_suffix _
      exact h1.trans (h2.trans h3)
    · simp [hc] at h

theorem chain_dropWhile_ne_op {op : Char} : ∀ {l : Str}, List.Chain' (okOp op) l →
    ∀ {w : Char}, l.head? = some w → isPySpace w = true →
    ∀ {c : Char}, (l.dropWhile isPySpace).head? = some c → c ≠ op := by
  intro l
  induction l with
  | nil => intro _ w hw; exact absurd hw (by simp)
  | cons a t ih =>
    intro hch w hw hws c hc
    injection hw with hw; subst hw
    rw [List.dropWhile_cons_of_pos hws] at hc
    cases t with
    | nil => simp at hc
    | cons x t' =>
      by_cases hx : isPySpace x
      · exact ih (List.chain'_cons'.mp hch).2 rfl hx hc
      · rw [List.dropWhile_cons_of_neg hx] at hc
        injection hc with hc
        subst hc
        intro heq
        have hpair := (List.chain'_cons'.mp hch).1 x rfl
        exact hpair.1 ⟨hws, heq⟩

theorem tryOpMatch_chain {op : Char} (hop : isPySpace op = false) :
    ∀ {l r : Str}, List.Chain' (okOp op) l → tryOpMatch op l = some r →
    l.head? = some op ∧ r = l.tail := by
  intro l r hch h
  cases l with
  | nil => unfold tryOpMatch at h; exact absurd h (by simp)
  | cons c t =>
    by_cases hc : isPySpace c
    · exfalso
      unfold tryOpMatch at h
      cases hd : (c :: t).dropWhile isPySpace with
      | nil => rw [hd] at h; exact absurd h (by simp)
      | cons x y =>
        rw [hd] at h
        by_cases hx : x = op
        · exact chain_dropWhile_ne_op hch rfl hc (by rw [hd]; rfl) hx
        · simp [hx] at h
    · unfold tryOpMatch at h
      rw [List.dropWhile_cons_of_neg hc] at h
      dsimp only at h
      by_cases hco : c = op
      · rw [if_pos hco] at h
        injection h with h
        refine ⟨by rw [show (c :: t).head? = some c from rfl, hco], ?_⟩
        rw [← h]
        show t.dropWhile isPySpace = t
        cases t with
        | nil => rfl
        | cons y t' =>
          have hpair := (List.chain'_cons'.mp hch).1 y rfl
          have hyw : ¬ isPySpace y = true := fun hw => hpair.2 ⟨hco, hw⟩
          exact List.dropWhile_cons_of_neg hyw
      · simp [hco] at h

theorem subOp_id {op : Char} (hop : isPySpace op = false) :
    ∀ {l : Str}, List.Chain' (okOp op) l → subOp op l = l := by
  intro l
  refine subOp_ind op (fun l => List.Chain' (okOp op) l → subOp op l = l) ?_ ?_ ?_ l
  · intro _; rw [subOp_nil]
  · intro c rest r h ih
    intro hch
    obtain ⟨hhead, hrt⟩ := tryOpMatch_chain hop hch h
    injection hhead with hhead
    have hr : r = rest := hrt
    subst hr
    rw [subOp_matched h, hhead, ih (List.chain'_cons'.mp hch).2]
  · intro c rest h ih
    intro hch
    rw [subOp_skip h, ih (List.chain'_cons'.mp hch).2]

theorem subOp_head_op_match {op : Char} (hop : isPySpace op = false) {rest : Str}
    (hh : (subOp op rest).head? = some op) (hnm : tryOpMatch op rest = none) :
    False := by
  cases rest with
  | nil => rw [subOp_nil] at hh; exact absurd hh (by simp)
  | cons x t =>
    cases hm : tryOpMatch op (x :: t) with
    | some r => rw [hm] at hnm; exact absurd hnm (by simp)
    | none =>
      rw [subOp_skip hm] at hh
      injection hh with hh
      have hx : (x :: t).head? = some op := by
        rw [show (x :: t).head? = some x from rfl, hh]
      rw [tryOpMatch_head_op hop hx] at hnm
      exact absurd hnm (by simp)

theorem subOp_chain (op : Char) (hop : isPySpace op = false) :
    ∀ l : Str, List.Chain' (okOp op) (subOp op l) := by
  intro l
  refine subOp_ind op (fun l => List.Chain' (okOp op) (subOp op l)) ?_ ?_ ?_ l
  · show List.Chain' (okOp op) (subOp op [])
    rw [subOp_nil]; exact List.chain'_nil
  · intro c rest r h ih
    rw [subOp_matched h]
    rw [List.chain'_cons']
    refine ⟨?_, ih⟩
    intro y hy
    constructor
    · rintro ⟨hws, _⟩; rw [hop] at hws; exact absurd hws (by simp)
    · rintro ⟨_, hwy⟩
      rcases subOp_head (Option.mem_def.mp hy) with hyo | hyh
      · subst hyo; rw [hop] at hwy; exact absurd hwy (by simp)
      · rw [tryOpMatch_rest_head h hyh] at hwy; exact absurd hwy (by simp)
  · intro c rest h ih
    rw [subOp_skip h]
    rw [List.chain'_cons']
    refine ⟨?_, ih⟩
    intro y hy
    have hcne : c ≠ op := by
      intro hco
      have hx : (c :: rest).head? = some op := by
        rw [show (c :: rest).head? = some c from rfl, hco]
      rw [tryOpMatch_head_op hop hx] at h
      exact absurd h (by simp)
    constructor
    · rintro ⟨hwc, hyo⟩
      subst hyo
      rw [tryOpMatch_ws_cons hwc] at h
      exact subOp_head_op_match hop (Option.mem_def.mp hy) h
    · rintro ⟨hco, _⟩; exact hcne hco

theorem subOp_preserve_chain {op op' : Char} (hop : isPySpace op = false)
    (hne : op ≠ op') :
    ∀ {l : Str}, List.Chain' (okOp op') l → List.Chain' (okOp op') (subOp op l) := by
  intro l
  refine subOp_ind op
    (fun l => List.Chain' (okOp op') l → List.Chain' (okOp op') (subOp op l))
    ?_ ?_ ?_ l
  · intro _; rw [subOp_nil]; exact List.chain'_nil
  · intro c rest r h ih
    intro hch
    rw [subOp_matched h]
    rw [List.chain'_cons']
    refine ⟨?_, ih (hch.suffix (tryOpMatch_suffix h))⟩
    intro y hy
    constructor
    · rintro ⟨hws, _⟩; rw [hop] at hws; exact absurd hws (by simp)
    · rintro ⟨hco, _⟩; exact hne hco
  · intro c rest h ih
    intro hch
    rw [subOp_skip h]
    rw [List.chain'_cons']
    refine ⟨?_, ih (List.chain'_cons'.mp hch).2⟩
    intro y hy
    rcases subOp_head (Option.mem_def.mp hy) with hyo | hyh
    · subst hyo
      constructor
      · rintro ⟨_, hoeq⟩; exact hne hoeq
      · rintro ⟨_, hwy⟩; rw [hop] at hwy; exact absurd hwy (by simp)
    · exact (List.chain'_cons'.mp hch).1 y hyh

theorem subWs_eq_nil {l : Str} (h : subWs l = []) : l = [] := by
  cases l with
  | nil => rfl
  | cons c rest =>
    by_cases hc : isPySpace c
    · rw [subWs_ws hc] at h; exact absurd h (by simp)
    · rw [subWs_nws (by simpa using hc)] at h; exact absurd h (by simp)

theorem subWs_head {l : Str} {d : Char} (h : (subWs l).head? = some d) :
    ∃ c, l.head? = some c ∧
      ((isPySpace c = true ∧ d = ' ') ∨ (isPySpace c = false ∧ d = c)) := by
  cases l with
  | nil => rw [subWs_nil] at h; exact absurd h (by simp)
  | cons c rest =>
    by_cases hc : isPySpace c
    · rw [subWs_ws hc] at h
      injection h with h
      exact ⟨c, rfl, Or.inl ⟨hc, h.symm⟩⟩
    · rw [subWs_nws (by simpa using hc)] at h
      injection h with h
      exact ⟨c, rfl, Or.inr ⟨by simpa using hc, h.symm⟩⟩

theorem subWs_preserve_chain {op : Char} (hop : isPySpace op = false) :
    ∀ {l : Str}, List.Chain' (okOp op) l → List.Chain' (okOp op) (subWs l) := by
  intro l
  refine subWs_ind
    (fun l => List.Chain' (okOp op) l → List.Chain' (okOp op) (subWs l))
    ?_ ?_ ?_ l
  · intro _; rw [subWs_nil]; exact List.chain'_nil
  · intro c rest hws ih
    intro hch
    rw [subWs_ws hws]
    rw [List.chain'_cons']
    have hchr : List.Chain' (okOp op) (rest.dropWhile isPySpace) :=
      hch.suffix ((List.dropWhile_suffix _).trans (List.suffix_cons c rest))
    refine ⟨?_, ih hchr⟩
    intro y hy
    obtain ⟨c2, hc2, hcase⟩ := subWs_head (Option.mem_def.mp hy)
    have hc2n : isPySpace c2 = false := head?_dropWhile_not hc2
    rcases hcase with ⟨hw, _⟩ | ⟨_, hyc⟩
    · rw [hc2n] at hw; exact absurd hw (by simp)
    · subst hyc
      constructor
      · rintro ⟨_, hyo⟩
        exact chain_dropWhile_ne_op hch rfl hws
          (by rw [List.dropWhile_cons_of_pos hws]; exact hc2) hyo
      · rintro ⟨hso, _⟩
        rw [← hso] at hop
        exact absurd hop (by decide)
  · intro c rest hnw ih
    intro hch
    rw [subWs_nws hnw]
    rw [List.chain'_cons']
    refine ⟨?_, ih (List.chain'_cons'.mp hch).2⟩
    intro y hy
    obtain ⟨c2, hc2, hcase⟩ := subWs_head (Option.mem_def.mp hy)
    have hpair := (List.chain'_cons'.mp hch).1 c2 hc2
    rcases hcase with ⟨hw, hyb⟩ | ⟨_, hyc⟩
    · subst hyb
      constructor
      · rintro ⟨_, hso⟩
        rw [← hso] at hop
        exact absurd hop (by decide)
      · rintro ⟨hco, _⟩
        exact hpair.2 ⟨hco, hw⟩
    · subst hyc
      exact hpair

theorem subWs_blank : ∀ {l : Str}, ∀ c ∈ subWs l, isPySpace c = true → c = ' ' := by
  intro l
  refine subWs_ind (fun l => ∀ c ∈ subWs l, isPySpace c = true → c = ' ')
    ?_ ?_ ?_ l
  · show ∀ c ∈ subWs [], isPySpace c = true → c = ' '
    rw [subWs_nil]; intro c hc; exact absurd hc (by simp)
  · intro c rest hws ih
    rw [subWs_ws hws]
    intro x hx hxw
    rcases List.mem_cons.mp hx with h | h
    · exact h
    · exact ih x h hxw
  · intro c rest hnw ih
    rw [subWs_nws hnw]
    intro x hx hxw
    rcases List.mem_cons.mp hx with h | h
    · subst h; rw [hxw] at hnw; exact absurd hnw (by simp)
    · exact ih x h hxw

theorem subWs_noWW : ∀ {l : Str}, List.Chain' noWW (subWs l) := by
  intro l
  refine subWs_ind (fun l => List.Chain' noWW (subWs l)) ?_ ?_ ?_ l
  · show List.Chain' noWW (subWs [])
    rw [subWs_nil]; exact List.chain'_nil
  · intro c rest hws ih
    rw [subWs_ws hws]
    rw [List.chain'_cons']
    refine ⟨?_, ih⟩
    intro y hy
    obtain ⟨c2, hc2, hcase⟩ := subWs_head (Option.mem_def.mp hy)
    have hc2n : isPySpace c2 = false := head?_dropWhile_not hc2
    rcases hcase with ⟨hw, _⟩ | ⟨_, hyc⟩
    · rw [hc2n] at hw; exact absurd hw (by simp)
    · subst hyc
      rintro ⟨_, hwy⟩
      rw [hc2n] at hwy; exact absurd hwy (by simp)
  · intro c rest hnw ih
    rw [subWs_nws hnw]
    rw [List.chain'_cons']
    refine ⟨?_, ih⟩
    intro y hy
    rintro ⟨hwc, _⟩
    rw [hwc] at hnw; exact absurd hnw (by simp)

theorem subWs_id : ∀ {l : Str}, (∀ c ∈ l, isPySpace c = true → c = ' ') →
    List.Chain' noWW l → subWs l = l := by
  intro l
  induction l with
  | nil => intro _ _; rw [subWs_nil]
  | cons c rest ih =>
    intro hall hch
    by_cases hws : isPySpace c
    · rw [subWs_ws hws]
      have hc : c = ' ' := hall c (by simp) hws
      have hrest : rest.dropWhile isPySpace = rest := by
        cases rest with
        | nil => rfl
        | cons y t =>
          have hpair := (List.chain'_cons'.mp hch).1 y rfl
          have hyw : ¬ isPySpace y = true := fun hw => hpair ⟨hws, hw⟩
          exact List.dropWhile_cons_of_neg hyw
      rw [hrest, hc]
      have := ih (fun x hx => hall x (List.mem_cons_of_mem c hx))
        (List.chain'_cons'.mp hch).2
      rw [this]
    · rw [subWs_nws (by simpa using hws)]
      have := ih (fun x hx => hall x (List.mem_cons_of_mem c hx))
        (List.chain'_cons'.mp hch).2
      rw [this]

/-- A right-stripped list is a prefix of the original. -/
theorem rstripPre (p : Char → Bool) (l : Str) :
    (l.reverse.dropWhile p).reverse <+: l := by
  obtain ⟨t, ht⟩ : l.reverse.dropWhile p <:+ l.reverse := List.dropWhile_suffix _
  exact ⟨t.reverse, by rw [← List.reverse_append, ht, List.reverse_reverse]⟩

theorem prefix_head {l₁ l₂ : Str} (h : l₁ <+: l₂) {c : Char}
    (hc : l₁.head? = some c) : l₂.head? = some c := by
  obtain ⟨t, ht⟩ := h
  subst ht
  cases l₁ with
  | nil => exact absurd hc (by simp)
  | cons a b => simpa using hc

/-- First character of the output is never whitespace. -/
def headNW (l : Str) : Prop := ∀ c, l.head? = some c → isPySpace c = false

/-- Last character of the output is never whitespace. -/
def lastNW (l : Str) : Prop := ∀ c, l.getLast? = some c → isPySpace c = false

theorem pyStrip_headNW (l : Str) : headNW (pyStrip l) := by
  intro c hc
  have h2 : (l.dropWhile isPySpace).head? = some c :=
    prefix_head (rstripPre isPySpace (l.dropWhile isPySpace)) hc
  exact head?_dropWhile_not h2

theorem pyStrip_lastNW (l : Str) : lastNW (pyStrip l) := by
  intro c hc
  have h1 : (pyStrip l).reverse.head? = some c := by
    rw [List.head?_reverse]; exact hc
  rw [pyStrip, List.reverse_reverse] at h1
  exact head?_dropWhile_not h1

theorem pyStrip_id {l : Str} (h1 : headNW l) (h2 : lastNW l) : pyStrip l = l := by
  have e1 : l.dropWhile isPySpace = l := by
    cases hl : l with
    | nil => rfl
    | cons c t =>
      have := h1 c (by rw [hl]; rfl)
      exact List.dropWhile_cons_of_neg (by simp [this])
  rw [pyStrip, e1]
  have e2 : l.reverse.dropWhile isPySpace = l.reverse := by
    cases hr : l.reverse with
    | nil => rfl
    | cons c t =>
      have hc : l.getLast? = some c := by
        rw [← List.head?_reverse, hr]; rfl
      have := h2 c hc
      exact List.dropWhile_cons_of_neg (by simp [this])
  rw [e2, List.reverse_reverse]

theorem getLast?_suffix {r l : Str} (h : r <:+ l) (hne : r ≠ []) :
    r.getLast? = l.getLast? := by
  obtain ⟨t, ht⟩ := h
  subst ht
  exact (List.getLast?_append_of_ne_nil t hne).symm

theorem getLast?_cons_ne {c : Char} {t : Str} (h : t ≠ []) :
    (c :: t).getLast? = t.getLast? := by
  cases t with
  | nil => exact absurd rfl h
  | cons a b => exact List.getLast?_cons_cons

theorem subOp_headNW {op : Char} (hop : isPySpace op = false) {l : Str}
    (h : headNW l) : headNW (subOp op l) := by
  intro c hc
  rcases subOp_head hc with hco | hh
  · subst hco; exact hop
  · exact h c hh

theorem subOp_lastNW {op : Char} (hop : isPySpace op = false) :
    ∀ {l : Str}, lastNW l → lastNW (subOp op l) := by
  intro l
  refine subOp_ind op (fun l => lastNW l → lastNW (subOp op l)) ?_ ?_ ?_ l
  · intro _ c hc; rw [subOp_nil] at hc; exact absurd hc (by simp)
  · intro c rest r hm ih
    intro h c0 hc0
    rw [subOp_matched hm] at hc0
    cases hsr : subOp op r with
    | nil =>
      rw [hsr] at hc0
      injection hc0 with hc0
      subst hc0
      exact hop
    | cons a b =>
      have hrne : r ≠ [] := by
        intro hre; rw [hre, subOp_nil] at hsr; exact absurd hsr.symm (by simp)
      have hlr : lastNW r := by
        intro x hx
        rw [getLast?_suffix (tryOpMatch_suffix hm) hrne] at hx
        exact h x hx
      rw [getLast?_cons_ne (by rw [hsr]; simp)] at hc0
      exact ih hlr c0 hc0
  · intro c rest hm ih
    intro h c0 hc0
    rw [subOp_skip hm] at hc0
    cases hre : rest with
    | nil =>
      rw [hre, subOp_nil] at hc0
      injection hc0 with hc0
      subst hc0
      exact h _ (by rw [hre]; rfl)
    | cons a b =>
      have hrne : rest ≠ [] := by rw [hre]; simp
      have hlr : lastNW rest := by
        intro x hx
        have : (c :: rest).getLast? = rest.getLast? := getLast?_cons_ne hrne
        rw [← this] at hx
        exact h x hx
      rw [getLast?_cons_ne (subOp_ne_nil hrne)] at hc0
      exact ih hlr c0 hc0

theorem dropWhile_nil_all {p : Char → Bool} {l : Str}
    (h : l.dropWhile p = []) : ∀ x ∈ l, p x = true := by
  intro x hx
  exact List.dropWhile_eq_nil_iff.mp h x hx

theorem getLast?_mem {l : Str} {c : Char} (h : l.getLast? = some c) : c ∈ l := by
  cases l with
  | nil => exact absurd h (by simp)
  | cons a t =>
    rw [List.getLast?_eq_getLast_of_ne_nil (by simp)] at h
    injection h with h
    rw [← h]
    exact List.getLast_mem _

theorem subWs_headNW {l : Str} (h : headNW l) : headNW (subWs l) := by
  intro c hc
  obtain ⟨c2, hc2, hcase⟩ := subWs_head hc
  rcases hcase with ⟨hw, _⟩ | ⟨hnw, hyc⟩
  · rw [h c2 hc2] at hw; exact absurd hw (by simp)
  · subst hyc; exact hnw

theorem subWs_lastNW : ∀ {l : Str}, lastNW l → lastNW (subWs l) := by
  intro l
  refine subWs_ind (fun l => lastNW l → lastNW (subWs l)) ?_ ?_ ?_ l
  · intro _ c hc; rw [subWs_nil] at hc; exact absurd hc (by simp)
  · intro c rest hws ih
    intro h c0 hc0
    rw [subWs_ws hws] at hc0
    cases hsr : subWs (rest.dropWhile isPySpace) with
    | nil =>
      exfalso
      have hre : rest.dropWhile isPySpace = [] := subWs_eq_nil hsr
      have hall : ∀ x ∈ c :: rest, isPySpace x = true := by
        intro x hx
        rcases List.mem_cons.mp hx with hx | hx
        · rw [hx]; exact hws
        · exact dropWhile_nil_all hre x hx
      obtain ⟨d, hd⟩ : ∃ d, (c :: rest).getLast? = some d :=
        ⟨_, List.getLast?_eq_getLast_of_ne_nil (by simp)⟩
      have := h d hd
      rw [hall d (getLast?_mem hd)] at this
      exact absurd this (by simp)
    | cons a b =>
      have hrne : rest.dropWhile isPySpace ≠ [] := by
        intro hre; rw [hre, subWs_nil] at hsr; exact absurd hsr.symm (by simp)
      have hlr : lastNW (rest.dropWhile isPySpace) := by
        intro x hx
        have hsuf : rest.dropWhile isPySpace <:+ c :: rest :=
          (List.dropWhile_suffix _).trans (List.suffix_cons c rest)
        rw [getLast?_suffix hsuf hrne] at hx
        exact h x hx
      rw [getLast?_cons_ne (by rw [hsr]; simp)] at hc0
      exact ih hlr c0 hc0
  · intro c rest hnw ih
    intro h c0 hc0
    rw [subWs_nws hnw] at hc0
    cases hre : rest with
    | nil =>
      rw [hre, subWs_nil] at hc0
      injection hc0 with hc0
      subst hc0
      exact h _ (by rw [hre]; rfl)
    | cons a b =>
      have hrne : rest ≠ [] := by rw [hre]; simp
      have hlr : lastNW rest := by
        intro x hx
        rw [show rest.getLast? = (c :: rest).getLast? from (getLast?_cons_ne hrne).symm] at hx
        exact h x hx
      have hsne : subWs rest ≠ [] := fun hh => hrne (subWs_eq_nil hh)
      rw [getLast?_cons_ne hsne] at hc0
      exact ih hlr c0 hc0

/-- `flatten_many` from the source: returns the two written files as
(name, content) pairs.  The empty-input branch writes truly empty files
(`write_text("")`). -/
def flatten_many (files : List (Str × List CellRow)) (outPref : Str) :
    List (Str × Str) :=
  if (files.map (fun f => flatten_one f.2 f.1)).join = [] then
    [(outPref ++ ("_full.csv").toList, []),
     (outPref ++ ("_clean.csv").toList, [])]
  else
    [(outPref ++ ("_full.csv").toList,
      toCsv fullHeader ((sortBy key2LtB ((files.map (fun f => flatten_one f.2 f.1)).join)).map
        (fun r => commaJoin (fullRowFields r)))),
     (outPref ++ ("_clean.csv").toList,
      toCsv cleanHeader ((sortBy key2LtB ((files.map (fun f => flatten_one f.2 f.1)).join)).map
        (fun r => commaJoin (cleanRowFields r))))]

/-! ## Helper lemmas for the claims -/

theorem splitCore_total (b t : Str) : ∃ v, splitCore b t = some v := by
  unfold splitCore
  by_cases hd : b.any Char.isDigit = true
  · rw [if_pos hd]
    obtain ⟨eb, heb, _⟩ := expandLoopO_total b
    rw [heb]
    exact ⟨_, rfl⟩
  · rw [if_neg hd]
    exact ⟨_, rfl⟩

theorem split_reps_segmentsT_total (r : Str) : ∃ v, split_reps_segmentsT r = some v := by
  unfold split_reps_segmentsT
  cases hm : mrSplit (normalize_tokens r) with
  | some gt =>
    obtain ⟨g, t⟩ := gt
    exact splitCore_total _ _
  | none => exact splitCore_total _ _

theorem pecAfterWeight_total (lbs : Option Rat) (unit rest : Str) :
    ∃ v, pecAfterWeight lbs unit rest = some v := by
  unfold pecAfterWeight
  cases hp : parse_side_weight_pairs rest with
  | mk ps lo =>
    dsimp only
    by_cases hne : ps ≠ []
    · rw [if_pos hne]; exact ⟨_, rfl⟩
    · rw [if_neg hne]
      obtain ⟨⟨segs, gf⟩, hs⟩ := split_reps_segmentsT_total rest
      rw [hs]
      exact ⟨_, rfl⟩

theorem parse_entry_cellT_eq (cell : Option Str) :
    parse_entry_cellT cell =
      pecAfterWeight (parse_weight cell).1 (parse_weight cell).2.2
        (normalize_tokens (parse_weight cell).2.1) := by
  unfold parse_entry_cellT
  cases hw : parse_weight cell with
  | mk lbs ru =>
    cases ru with
    | mk rest unit => rfl

theorem pyStrip_all_ws {l : Str} (h : pyStrip l = []) :
    ∀ c ∈ l, isPySpace c = true := by
  unfold pyStrip at h
  rw [List.reverse_eq_nil_iff] at h
  intro c hc
  rw [← l.takeWhile_append_dropWhile isPySpace] at hc
  rcases List.mem_append.mp hc with hx | hx
  · exact List.mem_takeWhile_imp hx
  · exact List.dropWhile_eq_nil_iff.mp h c (by rw [List.mem_reverse]; exact hx)

theorem pyStrip_ne_nil {l : Str} {c : Char} (hc : c ∈ l)
    (hns : isPySpace c = false) : pyStrip l ≠ [] := by
  intro h
  rw [pyStrip_all_ws h c hc] at hns
  exact absurd hns (by simp)

theorem digit_not_ws {c : Char} (h : c.isDigit = true) : isPySpace c = false := by
  by_contra hws
  rw [Bool.not_eq_false] at hws
  unfold isPySpace at hws
  simp only [Bool.or_eq_true, decide_eq_true_eq] at hws
  rcases hws with ((((h1 | h1) | h1) | h1) | h1) | h1 <;>
    (subst h1; exact absurd h (by decide))

theorem assignGo_length (acc l : List FlatRow) :
    (assignGo acc l).length = l.length := by
  induction l generalizing acc with
  | nil => rfl
  | cons r t ih => simp [assignGo, ih]

theorem assignGo_get : ∀ (l acc : List FlatRow) (i : Nat) (h : i < l.length)
    (h2 : i < (assignGo acc l).length),
    (assignGo acc l).get ⟨i, h2⟩ =
      { l.get ⟨i, h⟩ with set_number :=
          1 + (acc ++ l.take i).countP (fun s => sameGroupB s (l.get ⟨i, h⟩)) } := by
  intro l
  induction l with
  | nil => intro acc i h; exact absurd h (by simp)
  | cons r t ih =>
    intro acc i h h2
    cases i with
    | zero => simp [assignGo]
    | succ j =>
      have hjt : j < t.length := by simpa using h
      have hj2 : j < (assignGo (r :: acc) t).length := by
        rw [assignGo_length]; exact hjt
      have e1 : (assignGo acc (r :: t)).get ⟨j + 1, h2⟩ =
          (assignGo (r :: acc) t).get ⟨j, hj2⟩ := rfl
      rw [e1, ih (r :: acc) j hjt hj2]
      have e3 : ((r :: t).get ⟨j + 1, h⟩) = t.get ⟨j, hjt⟩ := rfl
      rw [e3]
      have e2 : ((r :: t).take (j + 1)) = r :: t.take j := rfl
      rw [e2]
      have hcount : ((r :: acc) ++ t.take j).countP
            (fun s => sameGroupB s (t.get ⟨j, hjt⟩)) =
          (acc ++ r :: t.take j).countP
            (fun s => sameGroupB s (t.get ⟨j, hjt⟩)) := by
        rw [List.countP_append, List.countP_append, List.countP_cons, List.countP_cons]
        omega
      rw [hcount]

theorem assignGo_take_countP : ∀ (l acc : List FlatRow) (p : FlatRow → Bool)
    (hp : ∀ r n, p { r with set_number := n } = p r) (i : Nat),
    ((assignGo acc l).take i).countP p = (l.take i).countP p := by
  intro l
  induction l with
  | nil => intro acc p hp i; rfl
  | cons r t ih =>
    intro acc p hp i
    cases i with
    | zero => rfl
    | succ j =>
      show ((({ r with set_number := _ } : FlatRow) :: assignGo (r :: acc) t).take
        (j + 1)).countP p = ((r :: t).take (j + 1)).countP p
      rw [List.take_succ_cons, List.take_succ_cons, List.countP_cons, List.countP_cons,
        ih (r :: acc) p hp j, hp]


/-! ## Remaining helper lemmas -/

/-- Every part built by the generic branch carries the cell-scoped weight,
unit and feeling. -/
theorem buildGeneric_fields (lbs : Option Rat) (unit : Str) (segs : List Seg)
    (gf : List Str) : ∀ p ∈ buildGeneric lbs unit segs gf,
    p.weight_lbs = lbs ∧ p.weight_unit_raw = unit ∧
      p.feeling = joinFeelings gf := by
  intro p hp
  unfold buildGeneric at hp
  by_cases hs : segs ≠ []
  · rw [if_pos hs] at hp
    obtain ⟨s, _, he⟩ := List.mem_map.mp hp
    rw [← he]
    exact ⟨rfl, rfl, rfl⟩
  · rw [if_neg hs] at hp
    cases lbs with
    | some v =>
      rw [List.mem_singleton.mp hp]
      exact ⟨rfl, rfl, rfl⟩
    | none => exact absurd hp (by simp)

theorem split_reps_segments_of_T {r : Str} {v : List Seg × List Str}
    (h : split_reps_segmentsT r = some v) : split_reps_segments r = v := by
  unfold split_reps_segments
  rw [h]
  rfl

/-- `parse_entry_cell` through the `ps = []` branch of the fast path. -/
theorem parse_entry_cell_generic (cell : Option Str)
    (hswr : (parse_side_weight_pairs
      (normalize_tokens (parse_weight cell).2.1)).1 = []) :
    parse_entry_cell cell =
      buildGeneric (parse_weight cell).1 (parse_weight cell).2.2
        (split_reps_segments (normalize_tokens (parse_weight cell).2.1)).1
        (split_reps_segments (normalize_tokens (parse_weight cell).2.1)).2 := by
  obtain ⟨⟨segs, gf⟩, hs⟩ :=
    split_reps_segmentsT_total (normalize_tokens (parse_weight cell).2.1)
  have hsr := split_reps_segments_of_T hs
  have hT : parse_entry_cellT cell =
      some (buildGeneric (parse_weight cell).1 (parse_weight cell).2.2 segs gf) := by
    rw [parse_entry_cellT_eq]
    unfold pecAfterWeight
    cases hp : parse_side_weight_pairs
        (normalize_tokens (parse_weight cell).2.1) with
    | mk ps lo =>
      dsimp only
      have hps : ps = [] := by
        rw [hp] at hswr
        exact hswr
      subst hps
      rw [if_neg (by simp), hs]
  show (parse_entry_cellT cell).getD [] = _
  rw [hT, hsr]
  rfl


/-- The header line (with its newline) is a prefix of every serialized
tabular view. -/
theorem header_prefix_toCsv (h : Str) (rows : List Str) :
    (h ++ ['\n']) <+: toCsv h rows :=
  ⟨nlJoin rows, by simp [toCsv, nlJoin]⟩

/-! ## The claims -/

/-- C1 (actual behaviour, contradicting the claim): on the cell
`"L10kgs 13 R10kgs 15"` — the example in the source's own comment on
`parse_side_weight_pairs` — `parse_entry_cell` returns exactly ONE part
(side `R`, reps 15, feeling `"13"`), not the claimed two parts for `L` and
`R`: `parse_weight` runs first and consumes the first `10kgs`, destroying
the `L` pair before the pair scanner sees the text. -/
theorem C1_actual_single_part :
    parse_entry_cell (some (("L10kgs 13 R10kgs 15").toList)) =
      [{ weight_lbs := some ((11023113109 : Rat) / 500000000), reps := 15,
         side := some ['R'], setting := none, segment_note := none,
         reps_raw_part := some (("15R").toList),
         weight_unit_raw := ("kgs").toList,
         feeling := some (("13").toList) }] := by decide

/-- C2 (actual behaviour, contradicting the claim): on the cell
`"50lb (3) 6+3+3"` — the example in the source's own comment `# Leading
group setting after weight: "(3) 6+3+3"` — `parse_entry_cell` returns ONE
fallback part with `reps = 12` and feeling `"6+3+3 | (3)"`, not three parts
with setting `"3"`: the lazy first regex of `split_reps_segments` takes
`reps_blob = "(3)"` and `tail = "6+3+3"`, and the leading-setting pattern
`^\(([^)]+)\)\s*(.+)$` then fails on the bare `"(3)"`. -/
theorem C2_actual_fallback_part :
    parse_entry_cell (some (("50lb (3) 6+3+3").toList)) =
      [{ weight_lbs := some 50, reps := 12, side := none, setting := none,
         segment_note := none, reps_raw_part := none,
         weight_unit_raw := ("lb").toList,
         feeling := some (("6+3+3 | (3)").toList) }] := by decide

/-- C3: `parse_entry_cell` is total — for every cell (absent, empty,
whitespace-only or arbitrary text) the fuel-observable form
`parse_entry_cellT` returns `some` of the list `parse_entry_cell` yields,
so the parser always produces a (possibly empty) list of parts and the
fuelled loops never fail. -/
theorem C3_parse_entry_cell_total (cell : Option Str) :
    parse_entry_cellT cell = some (parse_entry_cell cell) := by
  obtain ⟨v, hv⟩ : ∃ v, parse_entry_cellT cell = some v := by
    rw [parse_entry_cellT_eq]
    exact pecAfterWeight_total _ _ _
  rw [hv]
  show some v = some ((parse_entry_cellT cell).getD [])
  rw [hv]
  rfl

/-- C4 (amended): whenever `parse_weight` finds a weight, the cell text
splits as `pre ++ m ++ post` where `m` is the matched token (beginning with
a digit) and the returned rest is `pyStrip post` — the remainder AFTER the
match; the search is not anchored, and the prefix `pre` before the matched
token is discarded rather than preserved. -/
theorem C4_weight_search_decomposition (txt : Str) (lbs : Rat)
    (rest unit : Str)
    (h : parse_weight (some txt) = (some lbs, rest, unit)) :
    ∃ pre m post, txt = pre ++ m ++ post ∧ rest = pyStrip post ∧
      ∃ d ds, m = d :: ds ∧ d.isDigit = true := by
  unfold parse_weight at h
  dsimp only at h
  by_cases hstrip : pyStrip txt = []
  · rw [if_pos hstrip] at h
    exact absurd h (by simp)
  · rw [if_neg hstrip] at h
    cases hs : searchWeight txt with
    | none =>
      rw [hs] at h
      simp only [Prod.mk.injEq] at h
      exact absurd h.1 (by simp)
    | some t =>
      obtain ⟨p2, m2, v2, u2, post2⟩ := t
      rw [hs] at h
      simp only [Prod.mk.injEq] at h
      obtain ⟨h1, h2, h3⟩ := h
      obtain ⟨hdec, hd⟩ := searchWeight_some hs
      exact ⟨p2, m2, post2, hdec, h2.symm, hd⟩

/-- C4 counterexample to the original claim: on `"x 50lb 10"` a weight IS
found although the cell does not begin with a numeric token (it begins with
the non-digit `x`), and the text before the match is dropped: the rest
carried forward is just `"10"`, so the cell is not `token ++ rest`. -/
theorem C4_not_anchored_counterexample :
    parse_weight (some (("x 50lb 10").toList)) =
      (some 50, ("10").toList, ("lb").toList) ∧
    (("x 50lb 10").toList).head? = some 'x' ∧
    Char.isDigit 'x' = false := by decide

/-- C4 witness: the decomposition theorem applied to the concrete cell
`"x 50lb 10"`. -/
theorem C4_weight_search_decomposition_witness :
    ∃ pre m post, ("x 50lb 10").toList = pre ++ m ++ post ∧
      ("10").toList = pyStrip post ∧
      ∃ d ds, m = d :: ds ∧ d.isDigit = true :=
  C4_weight_search_decomposition (("x 50lb 10").toList) 50 (("10").toList)
    (("lb").toList) (by decide)


/-- Demonstration input for the set-number claim: two cells of the same
exercise on the same date, each parsing to two parts. -/
def demoRows : List CellRow :=
  [{ exercise := ("ex").toList, set_row := 1, date := 7,
     entry := ("100lb 5+9").toList },
   { exercise := ("ex").toList, set_row := 2, date := 7,
     entry := ("200lb 7+2").toList }]

/-- The fourth flattened row of `demoRows` (second part of the second
cell), carrying `set_number = 4`. -/
def demoRow3 : FlatRow :=
  { date := 7, exercise := ("ex").toList, weight_lbs := some 200, reps := 2,
    side := none, setting := none, segment_note := none, feeling := none,
    reps_raw_part := some (("2").toList), raw_cell := ("200lb 7+2").toList,
    weight_unit_raw := ("lb").toList, set_row := 2, part_idx := 2,
    source_file := ("f.csv").toList, set_number := 4 }

/-- C5: every row of `flatten_one` is the corresponding row of the list
sorted by (exercise, date, set-row, part-index), with `set_number` set to
1 plus the number of earlier sorted rows in the same (date, exercise)
group — i.e. the sorted order determines a 1-based per-group counter, and
nothing else (in particular no weight or reps value) influences it. -/
theorem C5_set_number_by_sorted_group_count (rows : List CellRow) (src : Str)
    (i : Nat) (r : FlatRow)
    (h : (flatten_one rows src)[i]? = some r) :
    ∃ s, (sortBy keyLtB (rawRows rows src))[i]? = some s ∧
      r = { s with set_number :=
        1 + ((sortBy keyLtB (rawRows rows src)).take i).countP (fun x => sameGroupB x s) } := by
  have hlen : i < (flatten_one rows src).length := by
    by_contra hnot
    rw [List.getElem?_eq_none (Nat.le_of_not_lt hnot)] at h
    exact Option.noConfusion h
  have hlen1 : i < (assignGo [] (sortBy keyLtB (rawRows rows src))).length :=
    hlen
  have hlen2 : i < (sortBy keyLtB (rawRows rows src)).length := by
    rw [assignGo_length] at hlen1
    exact hlen1
  refine ⟨(sortBy keyLtB (rawRows rows src)).get ⟨i, hlen2⟩,
    List.getElem?_eq_getElem hlen2, ?_⟩
  have hr : r = (assignGo [] (sortBy keyLtB (rawRows rows src))).get
      ⟨i, hlen1⟩ := by
    have he : (flatten_one rows src)[i]? =
        some ((flatten_one rows src).get ⟨i, hlen⟩) :=
      List.getElem?_eq_getElem hlen
    rw [he] at h
    exact (Option.some.inj h).symm
  rw [hr, assignGo_get _ [] i hlen2 hlen1]
  rw [List.nil_append]

/-- C5 witness: on `demoRows` the four flattened rows get `set_number`
1,2,3,4, and the theorem applied at index 3 exhibits row 4 as sorted row 3
plus its group count. -/
theorem C5_set_number_witness :
    ((flatten_one demoRows (("f.csv").toList)).map FlatRow.set_number =
      [1, 2, 3, 4]) ∧
    ∃ s, (sortBy keyLtB (rawRows demoRows (("f.csv").toList)))[3]? = some s ∧
      demoRow3 = { s with set_number :=
        1 + ((sortBy keyLtB (rawRows demoRows (("f.csv").toList))).take 3).countP (fun x => sameGroupB x s) } :=
  ⟨by decide,
   C5_set_number_by_sorted_group_count demoRows (("f.csv").toList) 3 demoRow3
     (by decide)⟩

/-- C6: the group-setting expansion loop `while prev != reps_blob`
terminates on every input: the fuelled loop `expandLoopO` always returns a
string that is a fixed point of the global substitution pass, and
`expand_group_settings_trailing` returns exactly that fixed point. -/
theorem C6_expansion_loop_terminates (s : Str) :
    ∃ t, expandLoopO s = some t ∧ passG t = t ∧
      expand_group_settings_trailing s = t := by
  obtain ⟨t, ht, hfix⟩ := expandLoopO_total s
  refine ⟨t, ht, hfix, ?_⟩
  unfold expand_group_settings_trailing
  rw [ht]
  rfl

/-- C7: `normalize_tokens` is idempotent: a second application changes
nothing, for every input string. -/
theorem C7_normalize_tokens_idempotent (s : Str) :
    normalize_tokens (normalize_tokens s) = normalize_tokens s := by
  have hplus : isPySpace '+' = false := by decide
  have hstar : isPySpace '*' = false := by decide
  have hne : ('*' : Char) ≠ '+' := by decide
  have hHead : headNW (normalize_tokens s) :=
    subWs_headNW (subOp_headNW hstar (subOp_headNW hplus (pyStrip_headNW s)))
  have hLast : lastNW (normalize_tokens s) :=
    subWs_lastNW (subOp_lastNW hstar (subOp_lastNW hplus (pyStrip_lastNW s)))
  have hchainP : List.Chain' (okOp '+') (normalize_tokens s) :=
    subWs_preserve_chain hplus
      (subOp_preserve_chain hstar hne (subOp_chain '+' hplus (pyStrip s)))
  have hchainS : List.Chain' (okOp '*') (normalize_tokens s) :=
    subWs_preserve_chain hstar (subOp_chain '*' hstar (subOp '+' (pyStrip s)))
  have hblank : ∀ c ∈ normalize_tokens s, isPySpace c = true → c = ' ' :=
    subWs_blank
  have hnoww : List.Chain' noWW (normalize_tokens s) := subWs_noWW
  show subWs (subOp '*' (subOp '+' (pyStrip (normalize_tokens s)))) =
    normalize_tokens s
  rw [pyStrip_id hHead hLast, subOp_id hplus hchainP, subOp_id hstar hchainS,
    subWs_id hblank hnoww]

/-- C8 (amended): both output files are always created with the `_full` /
`_clean` suffixed names; when at least one row was parsed each file starts
with its header line, but when zero rows were parsed both files are written
with truly empty content — no header row. -/
theorem C8_two_outputs_empty_without_header
    (files : List (Str × List CellRow)) (outPref : Str) :
    ∃ c1 c2, flatten_many files outPref =
        [(outPref ++ ("_full.csv").toList, c1),
         (outPref ++ ("_clean.csv").toList, c2)] ∧
      (((files.map (fun f => flatten_one f.2 f.1)).join = [] →
          c1 = [] ∧ c2 = []) ∧
        ((files.map (fun f => flatten_one f.2 f.1)).join ≠ [] →
          (fullHeader ++ ['\n']) <+: c1 ∧ (cleanHeader ++ ['\n']) <+: c2)) := by
  unfold flatten_many
  by_cases hj : (files.map (fun f => flatten_one f.2 f.1)).join = []
  · rw [if_pos hj]
    exact ⟨[], [], rfl, fun _ => ⟨rfl, rfl⟩, fun hne => absurd hj hne⟩
  · rw [if_neg hj]
    exact ⟨_, _, rfl, fun he => absurd he hj,
      fun _ => ⟨header_prefix_toCsv _ _, header_prefix_toCsv _ _⟩⟩

/-- C8 counterexample to the original claim: with no input files both
outputs are created but their contents are the empty string, which cannot
contain the (nonempty) header row. -/
theorem C8_empty_outputs_have_no_header :
    flatten_many [] (("out").toList) =
      [(("out_full.csv").toList, []), (("out_clean.csv").toList, [])] ∧
    fullHeader ≠ [] ∧ cleanHeader ≠ [] := by decide

/-- C8 witness: the output-shape theorem applied to the empty input. -/
theorem C8_two_outputs_witness :
    ∃ c1 c2, flatten_many [] (("out").toList) =
        [(("out").toList ++ ("_full.csv").toList, c1),
         (("out").toList ++ ("_clean.csv").toList, c2)] ∧
      ((((List.nil : List (Str × List CellRow)).map
            (fun f => flatten_one f.2 f.1)).join = [] →
          c1 = [] ∧ c2 = []) ∧
        (((List.nil : List (Str × List CellRow)).map
            (fun f => flatten_one f.2 f.1)).join ≠ [] →
          (fullHeader ++ ['\n']) <+: c1 ∧ (cleanHeader ++ ['\n']) <+: c2)) :=
  C8_two_outputs_empty_without_header [] (("out").toList)

/-- C9: when a weight is found but neither the side/weight-pair fast path
nor segment splitting produces any part, `parse_entry_cell` synthesizes
exactly one part with the default 12 reps, the found weight and unit, and
the joined global feelings. -/
theorem C9_default_twelve_reps (cell : Option Str) (lbs : Rat)
    (rest unit : Str)
    (hw : parse_weight cell = (some lbs, rest, unit))
    (hswr : (parse_side_weight_pairs (normalize_tokens rest)).1 = [])
    (hsegs : (split_reps_segments (normalize_tokens rest)).1 = []) :
    parse_entry_cell cell =
      [{ weight_lbs := some lbs, reps := 12, side := none, setting := none,
         segment_note := none, reps_raw_part := none, weight_unit_raw := unit,
         feeling :=
           joinFeelings ((split_reps_segments (normalize_tokens rest)).2) }] := by
  have hgen := parse_entry_cell_generic cell (by rw [hw]; exact hswr)
  rw [hw] at hgen
  dsimp only at hgen
  rw [hgen, hsegs]
  unfold buildGeneric
  rw [if_neg (by simp)]

/-- C9 witness: on the cell `"135lb"` (weight found, no rep segments) the
parser returns the single default part with 12 reps and weight 135. -/
theorem C9_default_twelve_reps_witness :
    (parse_weight (some (("135lb").toList)) =
      (some 135, [], ("lb").toList)) ∧
    ((parse_side_weight_pairs (normalize_tokens [])).1 = []) ∧
    ((split_reps_segments (normalize_tokens [])).1 = []) ∧
    parse_entry_cell (some (("135lb").toList)) =
      [{ weight_lbs := some 135, reps := 12, side := none, setting := none,
         segment_note := none, reps_raw_part := none,
         weight_unit_raw := ("lb").toList,
         feeling :=
           joinFeelings ((split_reps_segments (normalize_tokens [])).2) }] :=
  ⟨by decide, by decide, by decide,
   C9_default_twelve_reps (some (("135lb").toList)) 135 [] (("lb").toList)
     (by decide) (by decide) (by decide)⟩

/-- C10: on the generic path (side/weight-pair fast path found nothing),
any two parts returned for the same cell agree on `weight_lbs`,
`weight_unit_raw` and `feeling` — those fields are cell-scoped. -/
theorem C10_generic_parts_share_cell_fields (cell : Option Str)
    (hswr : (parse_side_weight_pairs
      (normalize_tokens (parse_weight cell).2.1)).1 = [])
    (p q : Part) (hp : p ∈ parse_entry_cell cell)
    (hq : q ∈ parse_entry_cell cell) :
    p.weight_lbs = q.weight_lbs ∧ p.weight_unit_raw = q.weight_unit_raw ∧
      p.feeling = q.feeling := by
  rw [parse_entry_cell_generic cell hswr] at hp hq
  obtain ⟨a1, a2, a3⟩ := buildGeneric_fields _ _ _ _ p hp
  obtain ⟨b1, b2, b3⟩ := buildGeneric_fields _ _ _ _ q hq
  rw [a1, a2, a3, b1, b2, b3]
  exact ⟨rfl, rfl, rfl⟩

/-- First part of the cell `"50lb 6+3"`. -/
def demoPartA : Part :=
  { weight_lbs := some 50, reps := 6, side := none, setting := none,
    segment_note := none, reps_raw_part := some (("6").toList),
    weight_unit_raw := ("lb").toList, feeling := none }

/-- Second part of the cell `"50lb 6+3"`. -/
def demoPartB : Part :=
  { weight_lbs := some 50, reps := 3, side := none, setting := none,
    segment_note := none, reps_raw_part := some (("3").toList),
    weight_unit_raw := ("lb").toList, feeling := none }

/-- C10 witness: the cell `"50lb 6+3"` takes the generic path and yields
two distinct parts sharing weight, unit and feeling. -/
theorem C10_cell_fields_witness :
    ((parse_side_weight_pairs (normalize_tokens
      (parse_weight (some (("50lb 6+3").toList))).2.1)).1 = []) ∧
    demoPartA ∈ parse_entry_cell (some (("50lb 6+3").toList)) ∧
    demoPartB ∈ parse_entry_cell (some (("50lb 6+3").toList)) ∧
    demoPartA ≠ demoPartB ∧
    (demoPartA.weight_lbs = demoPartB.weight_lbs ∧
      demoPartA.weight_unit_raw = demoPartB.weight_unit_raw ∧
      demoPartA.feeling = demoPartB.feeling) :=
  ⟨by decide, by decide, by decide, by decide,
   C10_generic_parts_share_cell_fields (some (("50lb 6+3").toList))
     (by decide) demoPartA demoPartB (by decide) (by decide)⟩

end FlattenWorkout
